import Mathlib

/-!
Verification development for the WissKI API client (`src/wisski/api.py`).

The Python module is shallowly embedded below.  Python dicts are modelled as
association lists in insertion order (Python dicts preserve insertion order and
have unique keys); Python exceptions are modelled as `none` results; JSON-ish
wire values are modelled by the inductive type `JVal`.  Recursion through
nested sub-entities is bounded by an explicit fuel parameter: the fuel only
limits the sub-entity nesting depth, every theorem either quantifies over the
fuel or hypothesises enough of it.
-/

namespace Wisski

/-! ### Association-list helpers (Python dict operations) -/

/-- Python `d[k]` as an optional lookup: first entry with key `k`. -/
def lookupKey {α : Type} (l : List (String × α)) (k : String) : Option α :=
  (l.find? (fun p => p.1 == k)).map (fun p => p.2)

/-- Python `k in d`. -/
def containsKey {α : Type} (l : List (String × α)) (k : String) : Bool :=
  l.any (fun p => p.1 == k)

/-- Python `d[k] = v` on a dict: replace in place if the key exists, else append. -/
def dictInsert {α : Type} (l : List (String × α)) (k : String) (v : α) : List (String × α) :=
  if containsKey l k then l.map (fun p => if p.1 == k then (k, v) else p) else l ++ [(k, v)]

/-- Python `base.update(upd)`: fold `dictInsert` over the update dict in order. -/
def dictUpdate {α : Type} (base upd : List (String × α)) : List (String × α) :=
  upd.foldl (fun acc p => dictInsert acc p.1 p.2) base

/-! ### Stable-enough sorting (Python `sorted` / `json.dumps(sort_keys=True)`)

Python's `sorted` is a stable sort.  All lists this development ever sorts
come from Python dicts and therefore have pairwise-distinct sort keys, so a
plain insertion sort computes the same result; it is structurally recursive,
which keeps every definition kernel-evaluable. -/

def insertLe {α : Type} (le : α → α → Bool) (a : α) : List α → List α
  | [] => [a]
  | b :: bs => if le a b then a :: b :: bs else b :: insertLe le a bs

def sortLe {α : Type} (le : α → α → Bool) : List α → List α
  | [] => []
  | a :: as => insertLe le a (sortLe le as)

/-! ### JSON-ish wire values -/

/-- Wire values exchanged with the remote API.  `pyobj` stands for a raw
non-JSON Python object that the code occasionally stuffs into a wire dict
(an `Entity` handed to `FieldTypeFormatter.format_value`); `json.dumps`
would fail on it, and no claim exercises that corner. -/
inductive JVal where
  | str (s : String)
  | null
  | pyobj
  | arr (l : List JVal)
  | obj (l : List (String × JVal))

mutual

def JVal.beq : JVal → JVal → Bool
  | .str a, .str b => a == b
  | .null, .null => true
  | .pyobj, .pyobj => true
  | .arr a, .arr b => JVal.beqList a b
  | .obj a, .obj b => JVal.beqPairs a b
  | _, _ => false

def JVal.beqList : List JVal → List JVal → Bool
  | [], [] => true
  | a :: as, b :: bs => JVal.beq a b && JVal.beqList as bs
  | _, _ => false

def JVal.beqPairs : List (String × JVal) → List (String × JVal) → Bool
  | [], [] => true
  | a :: as, b :: bs => (a.1 == b.1) && JVal.beq a.2 b.2 && JVal.beqPairs as bs
  | _, _ => false

end

mutual

theorem JVal.beq_iff : ∀ a b : JVal, JVal.beq a b = true ↔ a = b
  | .str a, .str b => by simp [JVal.beq]
  | .str _, .null => by simp [JVal.beq]
  | .str _, .pyobj => by simp [JVal.beq]
  | .str _, .arr _ => by simp [JVal.beq]
  | .str _, .obj _ => by simp [JVal.beq]
  | .null, .str _ => by simp [JVal.beq]
  | .null, .null => by simp [JVal.beq]
  | .null, .pyobj => by simp [JVal.beq]
  | .null, .arr _ => by simp [JVal.beq]
  | .null, .obj _ => by simp [JVal.beq]
  | .pyobj, .str _ => by simp [JVal.beq]
  | .pyobj, .null => by simp [JVal.beq]
  | .pyobj, .pyobj => by simp [JVal.beq]
  | .pyobj, .arr _ => by simp [JVal.beq]
  | .pyobj, .obj _ => by simp [JVal.beq]
  | .arr _, .str _ => by simp [JVal.beq]
  | .arr _, .null => by simp [JVal.beq]
  | .arr _, .pyobj => by simp [JVal.beq]
  | .arr a, .arr b => by simp [JVal.beq, JVal.beqList_iff a b]
  | .arr _, .obj _ => by simp [JVal.beq]
  | .obj _, .str _ => by simp [JVal.beq]
  | .obj _, .null => by simp [JVal.beq]
  | .obj _, .pyobj => by simp [JVal.beq]
  | .obj _, .arr _ => by simp [JVal.beq]
  | .obj a, .obj b => by simp [JVal.beq, JVal.beqPairs_iff a b]

theorem JVal.beqList_iff : ∀ a b : List JVal, JVal.beqList a b = true ↔ a = b
  | [], [] => by simp [JVal.beqList]
  | [], _ :: _ => by simp [JVal.beqList]
  | _ :: _, [] => by simp [JVal.beqList]
  | a :: as, b :: bs => by
      simp [JVal.beqList, JVal.beq_iff a b, JVal.beqList_iff as bs]

theorem JVal.beqPairs_iff : ∀ a b : List (String × JVal), JVal.beqPairs a b = true ↔ a = b
  | [], [] => by simp [JVal.beqPairs]
  | [], _ :: _ => by simp [JVal.beqPairs]
  | _ :: _, [] => by simp [JVal.beqPairs]
  | a :: as, b :: bs => by
      simp [JVal.beqPairs, JVal.beq_iff a.2 b.2, JVal.beqPairs_iff as bs, Prod.ext_iff, and_assoc]

end

instance : DecidableEq JVal := fun a b => decidable_of_iff (JVal.beq a b = true) (JVal.beq_iff a b)

/-! ### Python `str` / `repr` renderings of wire values

Modelled for the value shapes the code actually renders (strings, `None`,
lists, dicts); string-escaping subtleties of `repr` are irrelevant here. -/

mutual

def pyRepr : JVal → String
  | .str s => "'" ++ s ++ "'"
  | .null => "None"
  | .pyobj => "<object>"
  | .arr l => "[" ++ String.intercalate ", " (pyReprList l) ++ "]"
  | .obj l => "\x7b" ++ String.intercalate ", " (pyReprPairs l) ++ "\x7d"

def pyReprList : List JVal → List String
  | [] => []
  | v :: vs => pyRepr v :: pyReprList vs

def pyReprPairs : List (String × JVal) → List String
  | [] => []
  | (k, v) :: vs => ("'" ++ k ++ "': " ++ pyRepr v) :: pyReprPairs vs

end

/-- Python `str(x)`: like `repr` except that plain strings print unquoted. -/
def pyStr : JVal → String
  | .str s => s
  | v => pyRepr v

/-! ### `json.dumps(..., sort_keys=True)`

Renders a wire value with the keys of every object in ascending order.
Escaping is modelled for quote and backslash, the two escapes that can occur
in this development's strings. -/

def jescape (s : String) : String :=
  s.foldl
    (fun acc c =>
      if c = '\\' then acc ++ "\\\\"
      else if c = '"' then acc ++ "\\\"" else acc.push c) ""

def jstr (s : String) : String := "\"" ++ jescape s ++ "\""

/-- Ordering used to sort the `(key, rendered value)` pairs of an object.
Ties on equal keys are broken by the rendered value; Python sorts only by
key but stably, and the two agree because object keys are pairwise distinct
in every dict this development builds. -/
def pairLe (p q : String × String) : Bool :=
  decide (p.1 < q.1) || (p.1 == q.1 && decide (p.2 ≤ q.2))

def renderPair (p : String × String) : String := jstr p.1 ++ ": " ++ p.2

mutual

def dumps : JVal → String
  | .str s => jstr s
  | .null => "null"
  | .pyobj => "<unserializable>"
  | .arr l => "[" ++ String.intercalate ", " (dumpsList l) ++ "]"
  | .obj l =>
      "\x7b" ++ String.intercalate ", " ((sortLe pairLe (dumpsPairs l)).map renderPair) ++ "\x7d"

def dumpsList : List JVal → List String
  | [] => []
  | v :: vs => dumps v :: dumpsList vs

def dumpsPairs : List (String × JVal) → List (String × String)
  | [] => []
  | (k, v) :: vs => (k, dumps v) :: dumpsPairs vs

end

/-! ### Path records and the path tree (`Pathbuilder`) -/

/-- One entry of the `paths` list handed to `Pathbuilder.add_paths`: the keys
of the path dict that the code reads (`id`, `parent`, `bundle`, `field`,
`fieldtype`, `is_group`, `enabled`). -/
structure PathRecord where
  id : String
  parent : String
  bundle : String
  field : String
  fieldtype : String
  is_group : Bool
  enabled : Bool
deriving DecidableEq, Repr

/-- A node of `Pathbuilder.tree`: a dict `\x7b id, children \x7d` whose
children dict is keyed by the child ids, in insertion order. -/
inductive Tree where
  | node (id : String) (children : List Tree)

def Tree.id : Tree → String
  | .node i _ => i

def Tree.children : Tree → List Tree
  | .node _ c => c

mutual

def Tree.beq : Tree → Tree → Bool
  | .node i c, .node j d => i == j && Tree.beqList c d

def Tree.beqList : List Tree → List Tree → Bool
  | [], [] => true
  | a :: as, b :: bs => Tree.beq a b && Tree.beqList as bs
  | _, _ => false

end

mutual

theorem Tree.beqT_iff : ∀ a b : Tree, Tree.beq a b = true ↔ a = b
  | .node i c, .node j d => by simp [Tree.beq, Tree.beqTList_iff c d]

theorem Tree.beqTList_iff : ∀ a b : List Tree, Tree.beqList a b = true ↔ a = b
  | [], [] => by simp [Tree.beqList]
  | [], _ :: _ => by simp [Tree.beqList]
  | _ :: _, [] => by simp [Tree.beqList]
  | a :: as, b :: bs => by simp [Tree.beqList, Tree.beqT_iff a b, Tree.beqTList_iff as bs]

end

instance : DecidableEq Tree := fun a b => decidable_of_iff (Tree.beq a b = true) (Tree.beqT_iff a b)

/-- The mutable state of a `Pathbuilder`: the search tree (rooted at the
sentinel id `"0"`) and the `paths` dict, keyed by record id in insertion
order.  The id/name/adapter attributes play no role in any claim. -/
structure PB where
  tree : Tree
  paths : List PathRecord
deriving DecidableEq

/-- A fresh `Pathbuilder` built with no paths: `tree = \x7b id: "0", children: \x7b\x7d \x7d`. -/
def PB.empty : PB := ⟨.node "0" [], []⟩

/-- Python `ident in self.paths` / `self.paths[ident]` (the dict is keyed by record id). -/
def lookupPath (paths : List PathRecord) (ident : String) : Option PathRecord :=
  paths.find? (fun p => p.id == ident)

mutual

/-- Embedding of the nested function `add_to_tree` in `Pathbuilder.add_path`
(api.py lines 131-159).  The boolean is the Python return value; the returned
tree reflects the in-place mutation (which happens only on success). -/
def add_to_tree (e : PathRecord) (paths : List PathRecord) : Tree → Bool × Tree
  | .node tid children =>
    if !e.enabled then (false, .node tid children)
    else if e.parent ≠ "0" ∧ (lookupPath paths e.parent).isNone then (false, .node tid children)
    else if e.parent = tid ∨ e.parent = "0" then
      if children.any (fun c => c.id == e.id) then (false, .node tid children)
      else (true, .node tid (children ++ [.node e.id []]))
    else
      let r := add_to_forest e paths children
      (r.1, .node tid r.2)

/-- The `for child in tree['children'].values()` loop of `add_to_tree`:
recurse into children in order, stopping at the first success. -/
def add_to_forest (e : PathRecord) (paths : List PathRecord) : List Tree → Bool × List Tree
  | [] => (false, [])
  | c :: cs =>
    let rc := add_to_tree e paths c
    if rc.1 then (true, rc.2 :: cs)
    else
      let rcs := add_to_forest e paths cs
      (rcs.1, rc.2 :: rcs.2)

end

/-- Embedding of `Pathbuilder.add_path` (api.py lines 121-165).  When the id
is new the record is put into `self.paths` first and only then offered to the
tree, so the paths dict is mutated even when the tree insertion fails. -/
def add_path (pb : PB) (p : PathRecord) : Bool × PB :=
  if (lookupPath pb.paths p.id).isNone then
    let paths1 := pb.paths ++ [p]
    let r := add_to_tree p paths1 pb.tree
    (r.1, ⟨r.2, paths1⟩)
  else (false, pb)

/-- The reordering in `Pathbuilder.add_paths` (api.py lines 59-68): all group
records first in input order, then the non-group records sorted by descending
id (Python `sorted(other.items(), reverse=True)` on unique dict keys). -/
def reorderPaths (l : List PathRecord) : List PathRecord :=
  l.filter (fun p => p.is_group) ++
    sortLe (fun a b => decide (b.id ≤ a.id)) (l.filter (fun p => !p.is_group))

/-- One pass of the `while helper` loop body (api.py lines 71-77): each
snapshot entry is offered to `add_path` and then popped unconditionally. -/
def add_paths_go : PB → List PathRecord → Nat × PB
  | pb, [] => (0, pb)
  | pb, p :: ps =>
    let r := add_path pb p
    let rest := add_paths_go r.2 ps
    ((if r.1 then 1 else 0) + rest.1, rest.2)

/-- Embedding of `Pathbuilder.add_paths` (api.py lines 47-78).  The `while
helper` loop pops every snapshot entry whether or not `add_path` succeeded
(`helper.pop(path['id'], None)` is unconditional), so the loop body runs for
exactly one full pass over the reordered records; the input is the `paths`
dict, whose keys are the record ids. -/
def add_paths (pb : PB) (l : List PathRecord) : Nat × PB :=
  add_paths_go pb (reorderPaths l)

mutual

/-- Embedding of the nested `search_in_tree` of
`Pathbuilder.get_subtree_for_field_id` (api.py lines 90-100): pre-order
search for a node whose record lists the needle as its field or bundle. -/
def search_in_tree (paths : List PathRecord) (needle : String) : Tree → Option Tree
  | .node tid children =>
    match lookupPath paths tid with
    | some p =>
      if needle == p.field || needle == p.bundle then some (.node tid children)
      else search_in_forest paths needle children
    | none => search_in_forest paths needle children

def search_in_forest (paths : List PathRecord) (needle : String) : List Tree → Option Tree
  | [] => none
  | c :: cs =>
    match search_in_tree paths needle c with
    | some r => some r
    | none => search_in_forest paths needle cs

end

/-- Embedding of `Pathbuilder.get_subtree_for_field_id` (api.py lines 80-105);
`none` models the raised `NoSuchPathException`. -/
def get_subtree_for_field_id (pb : PB) (needle : String) : Option Tree :=
  search_in_tree pb.paths needle pb.tree

/-- Embedding of `Pathbuilder.get_path_for_id` (api.py lines 107-119): linear
scan over the attached records, explicit `none` (Python `None`) when absent. -/
def get_path_for_id (pb : PB) (fid : String) : Option PathRecord :=
  pb.paths.find? (fun p => p.field == fid || (p.field == p.bundle && p.bundle == fid))

/-! ### Field codec (`FieldTypeFormatter`) -/

def WISSKI_INDIVIDUAL : String := "wisski_individual"

def WISSKI_BUNDLE : String := "wisski_bundle"

/-- Embedding of `FieldTypeFormatter.format_value` (api.py lines 936-1007).
Python's falsy test `not field_type` is modelled by equality with the empty
string.  The value is embedded as-is into the produced dict, exactly as the
Python code does. -/
def format_value (field_type : String) (value : JVal) : List (String × JVal) :=
  if field_type = "" ∨ field_type = "entity_reference" then
    [("target_uri", value), ("target_type", .str WISSKI_INDIVIDUAL)]
  else if field_type = "text_long" then
    [("value", value), ("format", .str "basic_html")]
  else if field_type = "image" then
    [("target_id", value), ("alt", .null), ("title", .null),
     ("target_type", .str "file"), ("url", .str "some URL")]
  else if field_type = "link" then
    [("uri", value), ("title", value), ("options", .arr [])]
  else
    [("value", value)]

/-- Embedding of `FieldTypeFormatter.get_value` (api.py lines 1009-1037).
The argument is the field-item dict (the Python signature annotates it as
`dict`); `none` models a raised `KeyError`.  Only the final default branch
guards its subscript with `try/except KeyError`. -/
def get_value (field_type : String) (value : List (String × JVal)) : Option JVal :=
  if field_type = "" ∨ field_type = "entity_reference" then
    (lookupKey value "target_uri").map (fun v => .str (pyStr v))
  else if field_type = "image" then
    (lookupKey value "target_id").map (fun v => .str (pyStr v))
  else if field_type = "link" then
    match lookupKey value "uri" with
    | none => none
    | some u =>
      let t := match lookupKey value "title" with
        | some t => t
        | none => u
      some (.str ("<a href=" ++ pyStr u ++ ">" ++ pyStr t ++ "</a>"))
  else if field_type = "string" then lookupKey value "value"
  else if field_type = "text_long" then lookupKey value "value"
  else if field_type = "file" then lookupKey value "url"
  else
    match lookupKey value "value" with
    | some v => some v
    | none => some (.str (pyRepr (.obj value)))

/-! ### Entities -/

mutual

/-- A single value of an entity field: either a plain wire value (scalars are
`JVal.str`) or an owned sub-entity. -/
inductive Value where
  | jval (j : JVal)
  | entity (e : Entity)

/-- State of an `Entity` (api.py lines 177-196): `bundle_id`, the `fields`
dict mapping field ids to value lists, the optional `uri`, the `_saved_hash`
fingerprint and the `unused_fields` pass-through dict.  The `api` back
reference is represented by passing the combined `PB` to every operation. -/
inductive Entity where
  | mk (bundle_id : String) (fields : List (String × List Value)) (uri : Option String)
      (saved_hash : Option String) (unused_fields : List (String × JVal))

end

def Entity.bundle_id : Entity → String
  | .mk b _ _ _ _ => b

def Entity.fields : Entity → List (String × List Value)
  | .mk _ f _ _ _ => f

def Entity.uri : Entity → Option String
  | .mk _ _ u _ _ => u

def Entity.saved_hash : Entity → Option String
  | .mk _ _ _ s _ => s

def Entity.unused_fields : Entity → List (String × JVal)
  | .mk _ _ _ _ uf => uf

/-- Replace the `_saved_hash` attribute. -/
def Entity.setSaved (e : Entity) (h : Option String) : Entity :=
  .mk e.bundle_id e.fields e.uri h e.unused_fields

/-- A freshly constructed `Entity(api, bundle_id="", fields={})` as built by
`Entity.deserialize` (api.py line 368). -/
def Entity.fresh : Entity := .mk "" [] none none []

/-- Python truthiness of the optional `uri` attribute (`if self.uri:`):
`None` and the empty string are falsy. -/
def truthyS : Option String → Bool
  | none => false
  | some s => !(s == "")

/-- The inner `for value in self.fields[field_id]` loop of `Entity.serialize`
(api.py lines 281-291), parameterised by the serializer used for nested
entities.  A sub-entity with an empty fields dict is skipped; a non-entity
value is wrapped by `format_value`; an `Entity` reaching the `format_value`
branch is embedded as the opaque `JVal.pyobj`. -/
def serValuesAux (ser : Entity → Option JVal) (p : PathRecord) : List Value → Option (List JVal)
  | [] => some []
  | v :: vs =>
    match v with
    | .entity sub =>
      if p.is_group || p.fieldtype == "entity_reference" then
        if sub.fields.length == 0 then serValuesAux ser p vs
        else
          match ser sub with
          | none => none
          | some c => (serValuesAux ser p vs).map (fun rest => .obj [("entity", c)] :: rest)
      else (serValuesAux ser p vs).map (fun rest => .obj (format_value p.fieldtype .pyobj) :: rest)
    | .jval j => (serValuesAux ser p vs).map (fun rest => .obj (format_value p.fieldtype j) :: rest)

/-- The `for path_id in bundle_path["children"]` loop of `Entity.serialize`
(api.py lines 269-292): look the child path up in `paths` (a missing entry
would be a `KeyError`), skip fields with no entry in `self.fields`, else
append the built field data under the path's field id. -/
def serFieldsAux (paths : List PathRecord) (fields : List (String × List Value))
    (ser : Entity → Option JVal) :
    List Tree → List (String × JVal) → Option (List (String × JVal))
  | [], acc => some acc
  | c :: cs, acc =>
    match lookupPath paths c.id with
    | none => none
    | some p =>
      match lookupKey fields p.field with
      | none => serFieldsAux paths fields ser cs acc
      | some vs =>
        match serValuesAux ser p vs with
        | none => none
        | some fd => serFieldsAux paths fields ser cs (dictInsert acc p.field (.arr fd))

/-- Embedding of `Entity.serialize` (api.py lines 241-297).  The fuel bounds
the sub-entity nesting depth; `none` models a propagated exception (unknown
bundle) or exhausted fuel.  The `"children" not in bundle_path` guard of the
Python code can never fire because every tree node carries a children dict. -/
def serialize : Nat → PB → Entity → Option JVal
  | 0, _, _ => none
  | n + 1, pb, e =>
    let base : List (String × JVal) :=
      [("bundle", .arr [.obj [("target_id", .str e.bundle_id), ("target_type", .str WISSKI_BUNDLE)]])]
    let base :=
      match e.uri with
      | some u => if u ≠ "" then base ++ [("wisski_uri", .arr [.obj [("value", .str u)]])] else base
      | none => base
    match get_subtree_for_field_id pb e.bundle_id with
    | none => none
    | some node =>
      match serFieldsAux pb.paths e.fields (serialize n pb) node.children base with
      | none => none
      | some acc => some (.obj (dictUpdate acc e.unused_fields))

/-- Python `str(x)` for the sub-entity uris collected in `Entity.to_csv`. -/
def strOfUri : Option String → String
  | none => "None"
  | some u => u

/-- Embedding of `Entity._hash` (api.py lines 219-224):
`json.dumps(self.serialize(), sort_keys=True)`. -/
def hashE (n : Nat) (pb : PB) (e : Entity) : Option String :=
  (serialize n pb e).map dumps

/-- Embedding of the `Entity.modified` property (api.py lines 206-217):
`True` when no fingerprint was ever snapshotted, else compare the snapshot
with the current hash.  `none` models `serialize` raising. -/
def modifiedE (n : Nat) (pb : PB) (e : Entity) : Option Bool :=
  match e.saved_hash with
  | none => some true
  | some h => (hashE n pb e).map (fun c => !(h == c))

/-- Embedding of `Entity._mark_unmodified` (api.py lines 198-204). -/
def mark_unmodified (n : Nat) (pb : PB) (e : Entity) : Option Entity :=
  match hashE n pb e with
  | none => none
  | some h => some (e.setSaved (some h))

/-- Parse `data["bundle"][0]["target_id"]` (api.py line 325); `none` models
the exceptions on absent list entries or keys.  A non-string target id is
outside the modelled state space (Python would store the raw object). -/
def parseBundleMarker : JVal → Option String
  | .arr (x :: _) =>
    match x with
    | .obj o =>
      match lookupKey o "target_id" with
      | some (.str b) => some b
      | _ => none
    | _ => none
  | _ => none

/-- Parse `data["wisski_uri"][0]["value"]` (api.py line 328). -/
def parseUriMarker : JVal → Option String
  | .arr (x :: _) =>
    match x with
    | .obj o =>
      match lookupKey o "value" with
      | some (.str u) => some u
      | _ => none
    | _ => none
  | _ => none

/-- Accumulator of `Entity.load`: the attributes the loop mutates. -/
structure LoadSt where
  bundle_id : String
  uri : Option String
  fields : List (String × List Value)
  unused : List (String × JVal)
deriving Inhabited

/-- The `for field_value in values` loop of `Entity.load` (api.py lines
338-345), parameterised by the deserializer for nested entities.  Each wire
item is a dict; an item carrying an `entity` key is deserialized recursively,
anything else goes through `get_value` (whose `KeyError` propagates). -/
def loadValuesAux (deser : List (String × JVal) → Option Entity) (ft : String) :
    List JVal → Option (List Value)
  | [] => some []
  | fv :: rest =>
    match fv with
    | .obj o =>
      if containsKey o "entity" then
        match lookupKey o "entity" with
        | some (.obj subL) =>
          match deser subL with
          | some sub => (loadValuesAux deser ft rest).map (fun r => .entity sub :: r)
          | none => none
        | _ => none
      else
        match get_value ft o with
        | some j => (loadValuesAux deser ft rest).map (fun r => .jval j :: r)
        | none => none
    | _ => none

/-- One iteration of the `for field_id, values in data.items()` loop of
`Entity.load` (api.py lines 322-351): the `bundle` and `wisski_uri` markers
are extracted specially, keys unknown to the pathbuilder are stashed verbatim
into `unused_fields`, known keys are decoded item-wise. -/
def loadStep (pb : PB) (deser : List (String × JVal) → Option Entity)
    (k : String) (v : JVal) (st : LoadSt) : Option LoadSt :=
  if k == "bundle" then
    match parseBundleMarker v with
    | some b => some { st with bundle_id := b }
    | none => none
  else if k == "wisski_uri" then
    match parseUriMarker v with
    | some u => some { st with uri := some u }
    | none => none
  else
    match get_path_for_id pb k with
    | none => some { st with unused := dictInsert st.unused k v }
    | some p =>
      match v with
      | .arr items =>
        match loadValuesAux deser p.fieldtype items with
        | none => none
        | some nfv =>
          let fields1 := if containsKey st.fields k then st.fields else st.fields ++ [(k, [])]
          let fields2 := if nfv.length ≠ 0 then dictInsert fields1 k nfv else fields1
          some { st with fields := fields2 }
      | _ => none

/-- The whole `data.items()` loop: fold `loadStep` over the wire dict. -/
def loadItemsAux (pb : PB) (deser : List (String × JVal) → Option Entity) :
    List (String × JVal) → LoadSt → Option LoadSt
  | [], st => some st
  | (k, v) :: rest, st =>
    match loadStep pb deser k v st with
    | none => none
    | some st2 => loadItemsAux pb deser rest st2

/-- Embedding of `Entity.load` (api.py lines 313-354).  `self.fields` and
`self.unused_fields` are reset to empty dicts before the loop; nested
entities are rebuilt through `Entity.deserialize` (a fresh entity loaded with
the same `modified` flag); with `modified = false` the fingerprint is
snapshotted at the end. -/
def load : Nat → PB → Entity → List (String × JVal) → Bool → Option Entity
  | 0, _, _, _, _ => none
  | n + 1, pb, e, data, m =>
    let st0 : LoadSt := ⟨e.bundle_id, e.uri, [], []⟩
    match loadItemsAux pb (fun subL => load n pb Entity.fresh subL m) data st0 with
    | none => none
    | some st =>
      let e1 : Entity := .mk st.bundle_id st.fields st.uri e.saved_hash st.unused
      if m then some e1 else mark_unmodified (n + 1) pb e1

/-- Embedding of the static `Entity.deserialize` (api.py lines 357-370). -/
def deserializeE (n : Nat) (pb : PB) (data : List (String × JVal)) (m : Bool) : Option Entity :=
  load n pb Entity.fresh data m

/-! ### Tabular flattening (`Entity.to_csv`) -/

/-- The file system seen by `to_csv`: filename to list of rows, each row a
list of cells. -/
abbrev FS : Type := List (String × List (List String))

/-- Append one csv row to a file, creating the file when absent (Python
`open(filename, mode="a")` plus `writer.writerow`). -/
def csvAppend (fs : FS) (fname : String) (row : List String) : FS :=
  if containsKey fs fname then
    fs.map (fun p => if p.1 == fname then (p.1, p.2 ++ [row]) else p)
  else fs ++ [(fname, [row])]

/-- The `"|".join(field_values)` cell of a scalar column (api.py line 431):
every value must be a plain string, anything else is a `TypeError`. -/
def cellStrings : List Value → Option (List String)
  | [] => some []
  | .jval (.str s) :: vs => (cellStrings vs).map (fun r => s :: r)
  | _ => none

/-- The sub-entity loop of a group column (api.py lines 419-428): collect the
sub uri (Python appends it before recursing), raise `AttributeError` on a
non-entity value, and recursively export each sub-entity, threading the file
system.  The error slot carries the pending exception. -/
def csvSubsAux (tocsv : FS → Entity → FS × Option String) :
    List Value → FS → List String → FS × List String × Option String
  | [], fs, uris => (fs, uris, none)
  | v :: vs, fs, uris =>
    match v with
    | .entity sub =>
      let uris1 := uris ++ [strOfUri sub.uri]
      let r := tocsv fs sub
      match r.2 with
      | some err => (r.1, uris1, some err)
      | none => csvSubsAux tocsv vs r.1 uris1
    | .jval _ => (fs, uris, some "AttributeError")

/-- The `for field_id in headers` loop of `Entity.to_csv` (api.py lines
407-431), building the row cells while sub-entity exports mutate the file
system. -/
def csvRowAux (tocsv : FS → Entity → FS × Option String) (pb : PB) (e : Entity) :
    List String → FS → List String → FS × List String × Option String
  | [], fs, row => (fs, row, none)
  | h :: hs, fs, row =>
    if h == "uri" then csvRowAux tocsv pb e hs fs (row ++ [strOfUri e.uri])
    else
      match lookupKey e.fields h with
      | none => (fs, row, some "KeyError")
      | some field_values =>
        match get_path_for_id pb h with
        | none => (fs, row, some "TypeError")
        | some p =>
          if p.is_group then
            let r := csvSubsAux tocsv field_values fs []
            match r.2.2 with
            | some err => (r.1, row, some err)
            | none => csvRowAux tocsv pb e hs r.1 (row ++ [String.intercalate "|" r.2.1])
          else
            match cellStrings field_values with
            | none => (fs, row, some "TypeError")
            | some cells => csvRowAux tocsv pb e hs fs (row ++ [String.intercalate "|" cells])

/-- Embedding of `Entity.to_csv` (api.py lines 372-434).  The missing-uri
check comes first, before any file is read or written; headers come from the
existing file (its first row; reading an empty file raises `StopIteration`)
or are derived as `uri` followed by the field ids; the header row is written
only for a fresh file, after the whole row was built, and then the data row.
On an error the file system produced so far is returned together with the
pending exception, matching Python state at the raise point. -/
def to_csv : Nat → PB → String → FS → Entity → FS × Option String
  | 0, _, _, fs, _ => (fs, some "fuel")
  | n + 1, pb, folder, fs, e =>
    if !truthyS e.uri then (fs, some "MissingUriException") else
    let filename := folder ++ "/" ++ e.bundle_id ++ ".csv"
    let fileExists := containsKey fs filename
    let headers? : Option (List String) :=
      if fileExists then
        match lookupKey fs filename with
        | some (h :: _) => some h
        | _ => none
      else some ("uri" :: e.fields.map (fun p => p.1))
    match headers? with
    | none => (fs, some "StopIteration")
    | some headers =>
      let r := csvRowAux (to_csv n pb folder) pb e headers fs []
      match r.2.2 with
      | some err => (r.1, some err)
      | none =>
        let fs1 := if fileExists then r.1 else csvAppend r.1 filename headers
        (csvAppend fs1 filename r.2.1, none)

/-! ### Toolbox: association-list lemmas -/

theorem lookupKey_cons {α : Type} (p : String × α) (l : List (String × α)) (k : String) :
    lookupKey (p :: l) k = if p.1 = k then some p.2 else lookupKey l k := by
  by_cases h : p.1 = k
  · rw [if_pos h]
    unfold lookupKey
    rw [List.find?_cons_of_pos _ (by simp [h])]
    rfl
  · rw [if_neg h]
    unfold lookupKey
    rw [List.find?_cons_of_neg _ (by simp [h])]

theorem containsKey_cons {α : Type} (p : String × α) (l : List (String × α)) (k : String) :
    containsKey (p :: l) k = (p.1 == k || containsKey l k) := by
  simp [containsKey]

theorem containsKey_eq_isSome_lookupKey {α : Type} (l : List (String × α)) (k : String) :
    containsKey l k = (lookupKey l k).isSome := by
  induction l with
  | nil => rfl
  | cons p rest ih =>
    rw [containsKey_cons, lookupKey_cons]
    by_cases h : p.1 = k
    · simp [h]
    · have hb : (p.1 == k) = false := by simp [h]
      simp [h, hb, ih]

theorem lookupKey_append {α : Type} (l1 l2 : List (String × α)) (k : String) :
    lookupKey (l1 ++ l2) k = (lookupKey l1 k).orElse (fun _ => lookupKey l2 k) := by
  induction l1 with
  | nil => simp [lookupKey]
  | cons p rest ih =>
    rw [List.cons_append, lookupKey_cons, lookupKey_cons]
    by_cases h : p.1 = k <;> simp [h, ih]

theorem containsKey_append {α : Type} (l1 l2 : List (String × α)) (k : String) :
    containsKey (l1 ++ l2) k = (containsKey l1 k || containsKey l2 k) := by
  simp [containsKey, List.any_append]

theorem lookupKey_eq_none_of_not_contains {α : Type} {l : List (String × α)} {k : String}
    (h : containsKey l k = false) : lookupKey l k = none := by
  rw [containsKey_eq_isSome_lookupKey] at h
  cases hl : lookupKey l k <;> simp [hl] at h ⊢

theorem contains_of_lookupKey {α : Type} {l : List (String × α)} {k : String} {v : α}
    (h : lookupKey l k = some v) : containsKey l k = true := by
  rw [containsKey_eq_isSome_lookupKey, h]
  rfl

/-- First projection of the replacement step inside `dictInsert`. -/
theorem fst_replace {α : Type} (v : α) (k : String) (p : String × α) :
    (if p.1 == k then (k, v) else p).1 = p.1 := by
  by_cases h : p.1 = k <;> simp [h]

theorem map_fst_replace {α : Type} (v : α) (k : String) (l : List (String × α)) :
    (l.map (fun p => if p.1 == k then (k, v) else p)).map Prod.fst = l.map Prod.fst := by
  rw [List.map_map]
  exact List.map_congr_left (fun p _ => fst_replace v k p)

theorem containsKey_map_replace {α : Type} (v : α) (l : List (String × α)) (k k2 : String) :
    containsKey (l.map (fun p => if p.1 == k then (k, v) else p)) k2 = containsKey l k2 := by
  induction l with
  | nil => rfl
  | cons p rest ih =>
    rw [List.map_cons, containsKey_cons, containsKey_cons, ih, fst_replace]

theorem map_replace_id {α : Type} (v : α) {l : List (String × α)} {k : String}
    (h : containsKey l k = false) : l.map (fun p => if p.1 == k then (k, v) else p) = l := by
  induction l with
  | nil => rfl
  | cons p rest ih =>
    rw [containsKey_cons, Bool.or_eq_false_iff] at h
    rw [List.map_cons, if_neg (by simp [h.1]), ih h.2]

theorem lookupKey_map_replace_self {α : Type} (v : α) {l : List (String × α)} {k : String}
    (h : containsKey l k = true) :
    lookupKey (l.map (fun p => if p.1 == k then (k, v) else p)) k = some v := by
  induction l with
  | nil => simp [containsKey] at h
  | cons p rest ih =>
    by_cases hp : p.1 = k
    · rw [List.map_cons, if_pos (by simp [hp]), lookupKey_cons, if_pos rfl]
    · rw [containsKey_cons] at h
      rw [List.map_cons, if_neg (by simp [hp]), lookupKey_cons, if_neg hp]
      exact ih (by simpa [hp] using h)

theorem lookupKey_map_replace_ne {α : Type} (v : α) (l : List (String × α)) {k k2 : String}
    (h : k2 ≠ k) :
    lookupKey (l.map (fun p => if p.1 == k then (k, v) else p)) k2 = lookupKey l k2 := by
  induction l with
  | nil => rfl
  | cons p rest ih =>
    by_cases hp : p.1 = k
    · rw [List.map_cons, if_pos (by simp [hp]), lookupKey_cons, lookupKey_cons,
        if_neg (fun e => h e.symm), if_neg (fun e => h (hp ▸ e).symm)]
      exact ih
    · rw [List.map_cons, if_neg (by simp [hp]), lookupKey_cons, lookupKey_cons]
      by_cases hk2 : p.1 = k2
      · rw [if_pos hk2, if_pos hk2]
      · rw [if_neg hk2, if_neg hk2]
        exact ih

theorem lookupKey_dictInsert_self {α : Type} (l : List (String × α)) (k : String) (v : α) :
    lookupKey (dictInsert l k v) k = some v := by
  unfold dictInsert
  by_cases h : containsKey l k = true
  · rw [if_pos h]
    exact lookupKey_map_replace_self v h
  · rw [if_neg h, lookupKey_append,
      lookupKey_eq_none_of_not_contains (by simpa using h)]
    simp [lookupKey_cons]

theorem lookupKey_dictInsert_ne {α : Type} (l : List (String × α)) {k k2 : String} (v : α)
    (h : k2 ≠ k) : lookupKey (dictInsert l k v) k2 = lookupKey l k2 := by
  unfold dictInsert
  by_cases hc : containsKey l k = true
  · rw [if_pos hc]
    exact lookupKey_map_replace_ne v l h
  · rw [if_neg hc, lookupKey_append]
    have h1 : lookupKey [(k, v)] k2 = none := by
      rw [lookupKey_cons, if_neg (fun e => h e.symm)]
      rfl
    rw [h1]
    cases lookupKey l k2 <;> rfl

theorem containsKey_dictInsert {α : Type} (l : List (String × α)) (k k2 : String) (v : α) :
    containsKey (dictInsert l k v) k2 = (containsKey l k2 || k2 == k) := by
  unfold dictInsert
  by_cases hc : containsKey l k = true
  · rw [if_pos hc, containsKey_map_replace]
    by_cases hk : k2 = k
    · simp [hk, hc]
    · simp [hk]
  · rw [if_neg hc, containsKey_append, containsKey_cons]
    by_cases hk : k2 = k
    · simp [containsKey, hk]
    · rw [beq_eq_false_iff_ne.mpr (fun e => hk e.symm), beq_eq_false_iff_ne.mpr hk]
      simp [containsKey]

theorem dictInsert_of_not_contains {α : Type} {l : List (String × α)} {k : String} (v : α)
    (h : containsKey l k = false) : dictInsert l k v = l ++ [(k, v)] := by
  unfold dictInsert
  rw [if_neg (by simp [h])]

theorem dictInsert_append_last {α : Type} {l : List (String × α)} {k : String} (x v : α)
    (h : containsKey l k = false) : dictInsert (l ++ [(k, x)]) k v = l ++ [(k, v)] := by
  unfold dictInsert
  rw [if_pos (by rw [containsKey_append, h, containsKey_cons]; simp)]
  rw [List.map_append, map_replace_id v h]
  simp

theorem dictUpdate_nil {α : Type} (base : List (String × α)) : dictUpdate base [] = base := rfl

theorem containsKey_dictUpdate {α : Type} (upd base : List (String × α)) (k : String) :
    containsKey (dictUpdate base upd) k = (containsKey base k || containsKey upd k) := by
  induction upd generalizing base with
  | nil => simp [dictUpdate, containsKey]
  | cons p rest ih =>
    show containsKey (dictUpdate (dictInsert base p.1 p.2) rest) k = _
    rw [ih, containsKey_dictInsert, containsKey_cons]
    by_cases h1 : k = p.1 <;> by_cases h2 : containsKey base k = true <;>
      by_cases h3 : containsKey rest k = true <;> simp [h1, h2, h3, eq_comm]

theorem keysNodup_dictInsert {α : Type} {l : List (String × α)} {k : String} (v : α)
    (h : (l.map Prod.fst).Nodup) : ((dictInsert l k v).map Prod.fst).Nodup := by
  unfold dictInsert
  by_cases hc : containsKey l k = true
  · rw [if_pos hc, map_fst_replace]
    exact h
  · rw [if_neg hc, List.map_append]
    simp only [List.map_cons, List.map_nil]
    rw [List.nodup_append]
    refine ⟨h, List.nodup_singleton k, ?_⟩
    intro a ha
    simp only [List.mem_singleton]
    intro hk
    subst hk
    obtain ⟨p, hp, hfst⟩ := List.mem_map.mp ha
    have : containsKey l a = true := by
      unfold containsKey
      exact List.any_eq_true.mpr ⟨p, hp, by simp [hfst]⟩
    simp [this] at hc

theorem lookupKey_dictUpdate {α : Type} (upd base : List (String × α)) (k : String)
    (hnd : (upd.map Prod.fst).Nodup) :
    lookupKey (dictUpdate base upd) k = (lookupKey upd k).orElse (fun _ => lookupKey base k) := by
  induction upd generalizing base with
  | nil => simp [dictUpdate, lookupKey]
  | cons p rest ih =>
    simp only [List.map_cons, List.nodup_cons] at hnd
    show lookupKey (dictUpdate (dictInsert base p.1 p.2) rest) k = _
    rw [ih _ hnd.2, lookupKey_cons]
    by_cases hk : p.1 = k
    · subst hk
      have hrest : lookupKey rest p.1 = none := by
        apply lookupKey_eq_none_of_not_contains
        cases hcr : containsKey rest p.1
        · rfl
        · exfalso
          unfold containsKey at hcr
          obtain ⟨q, hq, hqf⟩ := List.any_eq_true.mp hcr
          exact hnd.1 (List.mem_map.mpr ⟨q, hq, by simpa using hqf⟩)
      rw [hrest]
      simp [lookupKey_dictInsert_self]
    · rw [if_neg hk]
      cases hr : lookupKey rest k
      · simp [lookupKey_dictInsert_ne _ _ (fun e => hk e.symm)]
      · simp [hr]

/-! ### Pathbuilder lemmas and claims C1, C2, C3, C8 -/

theorem find?_append_singleton_none {α : Type} (pred : α → Bool) (l : List α) (r : α)
    (h1 : l.find? pred = none) (h2 : pred r = false) : (l ++ [r]).find? pred = none := by
  induction l with
  | nil =>
    rw [List.nil_append]
    simp [List.find?, h2]
  | cons p rest ih =>
    cases hp : pred p
    · rw [List.find?_cons_of_neg _ (by simp [hp])] at h1
      rw [List.cons_append, List.find?_cons_of_neg _ (by simp [hp])]
      exact ih h1
    · rw [List.find?_cons_of_pos _ hp] at h1
      exact absurd h1 (by simp)

theorem lookupPath_append_none {l : List PathRecord} {r : PathRecord} {x : String}
    (h1 : lookupPath l x = none) (h2 : r.id ≠ x) : lookupPath (l ++ [r]) x = none := by
  unfold lookupPath at h1 ⊢
  exact find?_append_singleton_none _ l r h1 (by simp [h2])

/-- C1 counterexample: a record with `enabled = false` is rejected by
`add_path` (it returns `False`) and is never attached to the tree, but the
`Pathbuilder` is *not* left unchanged: `add_path` stores the record in the
`self.paths` index before running the enabled check, so the disabled record
is inserted into the record index. -/
theorem C1_disabled_record_mutates_index :
    (add_path PB.empty ⟨"pd", "0", "X", "x", "string", false, false⟩).1 = false ∧
    (add_path PB.empty ⟨"pd", "0", "X", "x", "string", false, false⟩).2.paths =
      [⟨"pd", "0", "X", "x", "string", false, false⟩] ∧
    (add_path PB.empty ⟨"pd", "0", "X", "x", "string", false, false⟩).2 ≠ PB.empty := by
  refine ⟨rfl, rfl, ?_⟩
  decide

/-- C1 amended: `add_path` returns `False` and leaves the *tree* unchanged
whenever the record is disabled, its id is already present, or its parent is
non-root and not yet registered; however, except in the duplicate-id case the
record is still appended to the `paths` record index (the index gains the
record even for disabled or parent-less records).  The self-parent corner
`parent = id` is excluded: there the in-code parent check consults the index
that already contains the record itself. -/
theorem C1_add_path_rejects (pb : PB) (r : PathRecord)
    (h : r.enabled = false ∨ (lookupPath pb.paths r.id).isSome = true ∨
        (r.parent ≠ "0" ∧ r.parent ≠ r.id ∧ lookupPath pb.paths r.parent = none)) :
    (add_path pb r).1 = false ∧ (add_path pb r).2.tree = pb.tree ∧
    (add_path pb r).2.paths =
      (if (lookupPath pb.paths r.id).isSome then pb.paths else pb.paths ++ [r]) := by
  unfold add_path
  cases hid : lookupPath pb.paths r.id with
  | some p =>
    simp only [hid, Option.isNone_some, Bool.false_eq_true, if_false, Option.isSome_some,
      if_true]
    refine ⟨?_, ?_, ?_⟩ <;> trivial
  | none =>
    simp only [hid, Option.isNone_none, if_true, Option.isSome_none, Bool.false_eq_true,
      if_false]
    obtain ⟨tid, ch⟩ := pb.tree
    rcases h with he | hs | ⟨hp0, hpid, hpnone⟩
    · unfold add_to_tree
      rw [he]
      refine ⟨?_, ?_, ?_⟩ <;> trivial
    · rw [hid] at hs
      exact absurd hs (by simp)
    · unfold add_to_tree
      cases he : r.enabled
      · refine ⟨?_, ?_, ?_⟩ <;> trivial
      · rw [if_neg (by simp)]
        rw [if_pos ⟨hp0, by rw [lookupPath_append_none hpnone (fun e => hpid e.symm)]; rfl⟩]
        refine ⟨?_, ?_, ?_⟩ <;> trivial

/-- C1 witness: the amended statement at a concrete disabled record. -/
theorem C1_witness :
    (add_path PB.empty ⟨"pe", "0", "Y", "y", "string", false, false⟩).1 = false ∧
    (add_path PB.empty ⟨"pe", "0", "Y", "y", "string", false, false⟩).2.tree = PB.empty.tree ∧
    (add_path PB.empty ⟨"pe", "0", "Y", "y", "string", false, false⟩).2.paths =
      (if (lookupPath PB.empty.paths "pe").isSome then PB.empty.paths
       else PB.empty.paths ++ [⟨"pe", "0", "Y", "y", "string", false, false⟩]) :=
  C1_add_path_rejects PB.empty ⟨"pe", "0", "Y", "y", "string", false, false⟩ (Or.inl rfl)

/-- Shared helper: the encode-then-decode law holds for every field type
except `link` and `file`. -/
theorem codec_roundtrip (ft : String) (v : String) (h1 : ft ≠ "link") (h2 : ft ≠ "file") :
    get_value ft (format_value ft (.str v)) = some (.str v) := by
  by_cases ha : ft = "" ∨ ft = "entity_reference"
  · unfold format_value get_value
    rw [if_pos ha, if_pos ha]
    simp [lookupKey_cons, pyStr]
  · by_cases hb : ft = "text_long"
    · subst hb
      rfl
    · by_cases hc : ft = "image"
      · subst hc
        rfl
      · by_cases hd : ft = "string"
        · subst hd
          rfl
        · unfold format_value get_value
          rw [if_neg ha, if_neg hb, if_neg hc, if_neg h1, if_neg ha, if_neg hc, if_neg h1,
            if_neg hd, if_neg hb, if_neg h2]
          simp [lookupKey_cons]

/-- C2 counterexample: for the field type `link` the decode of an encode is
the HTML anchor rendering, not the original scalar. -/
theorem C2_link_roundtrip_broken :
    get_value "link" (format_value "link" (.str "x")) = some (.str "<a href=x>x</a>") ∧
    JVal.str "<a href=x>x</a>" ≠ JVal.str "x" := by
  refine ⟨rfl, ?_⟩
  decide

/-- C2 amended: decoding the encoding returns the original scalar for every
field type in the vocabulary except `link` (which decodes to an HTML anchor
string) and `file` (whose decode reads a `url` key that the encode never
writes, raising `KeyError`). -/
theorem C2_codec_roundtrip_amended :
    ∀ ft v, ft ≠ "link" → ft ≠ "file" →
      get_value ft (format_value ft (.str v)) = some (.str v) :=
  fun ft v h1 h2 => codec_roundtrip ft v h1 h2

/-- C2 witness: the amended round-trip at the field type `string`. -/
theorem C2_witness : get_value "string" (format_value "string" (.str "v")) = some (.str "v") :=
  C2_codec_roundtrip_amended "string" "v" (by decide) (by decide)

/-- C3 counterexample: decode *does* raise on malformed-but-present data for
the special-cased field types.  With field type `string` and an empty dict the
expected key `value` is missing and `get_value` raises `KeyError` (modelled as
`none`) instead of falling back; with field type `file` even a present generic
`value` key is ignored and the missing `url` key raises. -/
theorem C3_get_value_raises :
    get_value "string" [] = none ∧ get_value "file" [("value", JVal.str "x")] = none :=
  ⟨rfl, rfl⟩

/-- C3 amended: the graceful fallback (expected key, then generic `value`
key, then the string rendering of the whole dict) applies only to field types
outside the special-cased set `∅/entity_reference, image, link, string,
text_long, file`; for those special-cased types a missing expected key raises
`KeyError`.  For every other field type decode is total, returning the
`value` entry if present and otherwise `repr` of the dict. -/
theorem C3_get_value_default_total (ft : String) (d : List (String × JVal))
    (h : ¬(ft = "" ∨ ft = "entity_reference" ∨ ft = "image" ∨ ft = "link" ∨ ft = "string" ∨
        ft = "text_long" ∨ ft = "file")) :
    get_value ft d = some ((lookupKey d "value").getD (.str (pyRepr (.obj d)))) := by
  push_neg at h
  obtain ⟨h1, h2, h3, h4, h5, h6, h7⟩ := h
  unfold get_value
  rw [if_neg (by tauto), if_neg h3, if_neg h4, if_neg h5, if_neg h6, if_neg h7]
  cases hv : lookupKey d "value" <;> simp [hv]

/-- C3 witness: the amended statement at a concrete non-special field type
with a dict that misses the `value` key. -/
theorem C3_witness :
    get_value "datetime" [("x", JVal.null)] =
      some ((lookupKey [("x", JVal.null)] "value").getD
        (.str (pyRepr (.obj [("x", JVal.null)])))) :=
  C3_get_value_default_total "datetime" [("x", JVal.null)] (by decide)

/-- C8: flattening an entity whose `uri` is `None` raises
`MissingUriException` before any row or header is written: the file system is
returned exactly as it was (so rows already written for siblings are
untouched), for any fuel, pathbuilder, folder and file-system state. -/
theorem C8_to_csv_requires_uri (n : Nat) (pb : PB) (folder : String) (fs : FS) (e : Entity)
    (h : e.uri = none) :
    to_csv (n + 1) pb folder fs e = (fs, some "MissingUriException") := by
  unfold to_csv
  rw [show truthyS e.uri = false by simp [h, truthyS]]
  rfl

/-- C8 witness: the statement at a concrete entity with no uri. -/
theorem C8_witness : to_csv 1 PB.empty "out" [] Entity.fresh = ([], some "MissingUriException") :=
  C8_to_csv_requires_uri 0 PB.empty "out" [] Entity.fresh rfl

/-! ### Claim C4: `add_paths` -/

mutual

def treeSize : Tree → Nat
  | .node _ c => 1 + forestSize c

def forestSize : List Tree → Nat
  | [] => 0
  | t :: ts => treeSize t + forestSize ts

end

theorem forest_size_append (a b : List Tree) :
    forestSize (a ++ b) = forestSize a + forestSize b := by
  induction a with
  | nil => simp [forestSize]
  | cons t ts ih =>
    show treeSize t + forestSize (ts ++ b) = treeSize t + forestSize ts + forestSize b
    rw [ih]
    omega

mutual

theorem add_to_tree_size (e : PathRecord) (paths : List PathRecord) :
    ∀ t : Tree, treeSize (add_to_tree e paths t).2 =
      treeSize t + (if (add_to_tree e paths t).1 then 1 else 0)
  | .node tid ch => by
    unfold add_to_tree
    by_cases h1 : (!e.enabled) = true
    · rw [if_pos h1]
      simp
    · rw [if_neg h1]
      by_cases h2 : e.parent ≠ "0" ∧ (lookupPath paths e.parent).isNone = true
      · rw [if_pos h2]
        simp
      · rw [if_neg h2]
        by_cases h3 : e.parent = tid ∨ e.parent = "0"
        · rw [if_pos h3]
          by_cases h4 : (ch.any fun c => c.id == e.id) = true
          · rw [if_pos h4]
            simp
          · rw [if_neg h4]
            simp only [if_true]
            show 1 + forestSize (ch ++ [.node e.id []]) = treeSize (.node tid ch) + 1
            rw [forest_size_append]
            simp only [treeSize, forestSize]
            omega
        · rw [if_neg h3]
          show 1 + forestSize (add_to_forest e paths ch).2 =
            treeSize (.node tid ch) + if (add_to_forest e paths ch).1 then 1 else 0
          rw [add_to_forest_size e paths ch]
          simp only [treeSize]
          cases (add_to_forest e paths ch).1
          · simp
          · simp only [if_true]
            omega

theorem add_to_forest_size (e : PathRecord) (paths : List PathRecord) :
    ∀ ts : List Tree, forestSize (add_to_forest e paths ts).2 =
      forestSize ts + (if (add_to_forest e paths ts).1 then 1 else 0)
  | [] => by simp [add_to_forest, forestSize]
  | c :: cs => by
    unfold add_to_forest
    by_cases h : (add_to_tree e paths c).1 = true
    · rw [if_pos h]
      show treeSize (add_to_tree e paths c).2 + forestSize cs =
        forestSize (c :: cs) + if true then 1 else 0
      rw [add_to_tree_size e paths c, h]
      simp only [forestSize, if_true]
      omega
    · rw [if_neg h]
      show treeSize (add_to_tree e paths c).2 + forestSize (add_to_forest e paths cs).2 =
        forestSize (c :: cs) + if (add_to_forest e paths cs).1 then 1 else 0
      rw [add_to_tree_size e paths c, add_to_forest_size e paths cs]
      rw [Bool.not_eq_true] at h
      rw [h]
      simp only [forestSize, Bool.false_eq_true, if_false]
      cases (add_to_forest e paths cs).1
      · simp
      · simp only [if_true]
        omega

end

theorem add_path_size (pb : PB) (p : PathRecord) :
    treeSize (add_path pb p).2.tree =
      treeSize pb.tree + (if (add_path pb p).1 then 1 else 0) := by
  unfold add_path
  by_cases h : (lookupPath pb.paths p.id).isNone = true
  · rw [if_pos h]
    exact add_to_tree_size p (pb.paths ++ [p]) pb.tree
  · rw [if_neg h]
    simp

theorem add_paths_go_size (l : List PathRecord) (pb : PB) :
    treeSize (add_paths_go pb l).2.tree = treeSize pb.tree + (add_paths_go pb l).1 := by
  induction l generalizing pb with
  | nil => simp [add_paths_go]
  | cons p ps ih =>
    show treeSize (add_paths_go pb (p :: ps)).2.tree = _
    unfold add_paths_go
    simp only
    rw [ih (add_path pb p).2, add_path_size]
    cases hc : (add_path pb p).1
    · simp
    · simp only [if_true]
      omega

/-- C4 counterexample: `add_paths` neither retries nor attaches every record
whose ancestor chain is present and enabled.  Both records are enabled
groups; record `a` names `b` as its parent and `b` hangs off the root, yet
with input order `[a, b]` only a single record is attached: `a` is offered
once (before `b` exists), popped unconditionally, and can never succeed later
because its id was already registered in the paths index; with the opposite
input order both records attach. -/
theorem C4_no_retry_order_dependent :
    (add_paths PB.empty
      [⟨"a", "b", "A", "A", "", true, true⟩, ⟨"b", "0", "Bb", "Bb", "", true, true⟩]).1 = 1 ∧
    (add_paths PB.empty
      [⟨"a", "b", "A", "A", "", true, true⟩, ⟨"b", "0", "Bb", "Bb", "", true, true⟩]).2.tree =
      .node "0" [.node "b" []] ∧
    (add_paths PB.empty
      [⟨"b", "0", "Bb", "Bb", "", true, true⟩, ⟨"a", "b", "A", "A", "", true, true⟩]).1 = 2 := by
  refine ⟨rfl, ?_, rfl⟩
  decide

/-- C4 amended: `add_paths` offers each record exactly once, in the fixed
order `groups first (input order), then non-groups by descending id`; records
that failed because their parent was absent are popped and never retried, so
attachment depends on the input order.  The call always terminates (the model
is a structurally recursive single pass, because `helper.pop` runs
unconditionally for every snapshot entry) and the returned count equals the
number of records actually inserted into the tree. -/
theorem C4_single_pass_count (pb : PB) (l : List PathRecord) :
    treeSize (add_paths pb l).2.tree = treeSize pb.tree + (add_paths pb l).1 := by
  unfold add_paths
  exact add_paths_go_size (reorderPaths l) pb

/-! ### Claim C7: the modification fingerprint -/

theorem insertLe_perm {α : Type} (le : α → α → Bool) (a : α) :
    ∀ l : List α, (insertLe le a l).Perm (a :: l)
  | [] => List.Perm.refl _
  | b :: bs => by
    unfold insertLe
    by_cases h : le a b = true
    · rw [if_pos h]
    · rw [if_neg h]
      exact ((insertLe_perm le a bs).cons b).trans (List.Perm.swap a b bs)

theorem sortLe_perm {α : Type} (le : α → α → Bool) : ∀ l : List α, (sortLe le l).Perm l
  | [] => List.Perm.refl _
  | a :: as => (insertLe_perm le a (sortLe le as)).trans ((sortLe_perm le as).cons a)

theorem insertLe_sorted {α : Type} (le : α → α → Bool)
    (htrans : ∀ a b c, le a b = true → le b c = true → le a c = true)
    (htot : ∀ a b, le a b = true ∨ le b a = true) (a : α) :
    ∀ l : List α, l.Pairwise (fun x y => le x y = true) →
      (insertLe le a l).Pairwise (fun x y => le x y = true)
  | [], _ => by simp [insertLe]
  | b :: bs, h => by
    unfold insertLe
    rw [List.pairwise_cons] at h
    by_cases hab : le a b = true
    · rw [if_pos hab]
      rw [List.pairwise_cons, List.pairwise_cons]
      refine ⟨?_, h.1, h.2⟩
      intro x hx
      rcases List.mem_cons.mp hx with rfl | hx2
      · exact hab
      · exact htrans a b x hab (h.1 x hx2)
    · rw [if_neg hab]
      rw [List.pairwise_cons]
      have hba : le b a = true := (htot a b).resolve_left hab
      constructor
      · intro x hx
        rcases List.mem_cons.mp ((insertLe_perm le a bs).mem_iff.mp hx) with rfl | hx2
        · exact hba
        · exact h.1 x hx2
      · exact insertLe_sorted le htrans htot a bs h.2

theorem sortLe_sorted {α : Type} (le : α → α → Bool)
    (htrans : ∀ a b c, le a b = true → le b c = true → le a c = true)
    (htot : ∀ a b, le a b = true ∨ le b a = true) :
    ∀ l : List α, (sortLe le l).Pairwise (fun x y => le x y = true)
  | [] => List.Pairwise.nil
  | a :: as => insertLe_sorted le htrans htot a _ (sortLe_sorted le htrans htot as)

theorem pairLe_unfold (p q : String × String) :
    pairLe p q = true ↔ (p.1 < q.1 ∨ (p.1 = q.1 ∧ p.2 ≤ q.2)) := by
  unfold pairLe
  simp [Bool.or_eq_true, Bool.and_eq_true]

theorem pairLe_total (p q : String × String) : pairLe p q = true ∨ pairLe q p = true := by
  rw [pairLe_unfold, pairLe_unfold]
  rcases lt_trichotomy p.1 q.1 with h | h | h
  · exact Or.inl (Or.inl h)
  · rcases le_total p.2 q.2 with hv | hv
    · exact Or.inl (Or.inr ⟨h, hv⟩)
    · exact Or.inr (Or.inr ⟨h.symm, hv⟩)
  · exact Or.inr (Or.inl h)

theorem pairLe_trans (a b c : String × String)
    (h1 : pairLe a b = true) (h2 : pairLe b c = true) : pairLe a c = true := by
  rw [pairLe_unfold] at h1 h2 ⊢
  rcases h1 with h1 | ⟨h1e, h1v⟩
  · rcases h2 with h2 | ⟨h2e, _⟩
    · exact Or.inl (h1.trans h2)
    · exact Or.inl (h2e ▸ h1)
  · rcases h2 with h2 | ⟨h2e, h2v⟩
    · exact Or.inl (h1e ▸ h2)
    · exact Or.inr ⟨h1e.trans h2e, h1v.trans h2v⟩

theorem pairLe_antisymm (p q : String × String)
    (h1 : pairLe p q = true) (h2 : pairLe q p = true) : p = q := by
  rw [pairLe_unfold] at h1 h2
  rcases h1 with h1 | ⟨h1e, h1v⟩
  · rcases h2 with h2 | ⟨h2e, _⟩
    · exact absurd h2 (lt_asymm h1)
    · exact absurd (h2e ▸ h1) (lt_irrefl _)
  · rcases h2 with h2 | ⟨_, h2v⟩
    · exact absurd (h1e ▸ h2) (lt_irrefl _)
    · exact Prod.ext h1e (le_antisymm h1v h2v)

theorem sortLe_pairLe_eq {l1 l2 : List (String × String)} (h : l1.Perm l2) :
    sortLe pairLe l1 = sortLe pairLe l2 := by
  refine @List.eq_of_perm_of_sorted _ (fun p q => pairLe p q = true)
    ⟨pairLe_antisymm⟩ _ _ ?_ ?_ ?_
  · exact ((sortLe_perm pairLe l1).trans h).trans (sortLe_perm pairLe l2).symm
  · exact sortLe_sorted pairLe pairLe_trans pairLe_total l1
  · exact sortLe_sorted pairLe pairLe_trans pairLe_total l2

theorem dumpsPairs_eq_map (l : List (String × JVal)) :
    dumpsPairs l = l.map (fun p => (p.1, dumps p.2)) := by
  induction l with
  | nil => rfl
  | cons p rest ih =>
    obtain ⟨k, v⟩ := p
    simp [dumpsPairs, ih]

/-- Canonicalisation: `json.dumps(..., sort_keys=True)` renders two objects
that hold the same entries in different key order identically. -/
theorem dumps_obj_perm {l1 l2 : List (String × JVal)} (h : l1.Perm l2) :
    dumps (.obj l1) = dumps (.obj l2) := by
  have e1 : dumps (.obj l1) =
      "\x7b" ++ String.intercalate ", " ((sortLe pairLe (dumpsPairs l1)).map renderPair) ++
        "\x7d" := rfl
  have e2 : dumps (.obj l2) =
      "\x7b" ++ String.intercalate ", " ((sortLe pairLe (dumpsPairs l2)).map renderPair) ++
        "\x7d" := rfl
  rw [e1, e2, dumpsPairs_eq_map, dumpsPairs_eq_map,
    sortLe_pairLe_eq (h.map (fun p => (p.1, dumps p.2)))]

/-- C7: the `modified` predicate is true exactly when no fingerprint was ever
snapshotted or the current hash differs from the snapshot (first part), and
the fingerprint is canonical in the key order: two serializations that are
key-permutations of one another hash identically, so `modified` cannot be
tripped by key reordering (second part). -/
theorem C7_modified_fingerprint :
    (∀ n pb e c, hashE n pb e = some c →
      (modifiedE n pb e = some true ↔ (e.saved_hash = none ∨ e.saved_hash ≠ some c))) ∧
    (∀ n pb e1 e2 l1 l2, serialize n pb e1 = some (.obj l1) →
      serialize n pb e2 = some (.obj l2) → l1.Perm l2 → hashE n pb e1 = hashE n pb e2) := by
  constructor
  · intro n pb e c hc
    unfold modifiedE
    cases hs : e.saved_hash with
    | none => simp
    | some h =>
      rw [hc]
      constructor
      · intro heq
        simp only [Option.map_some, Option.some_inj] at heq
        refine Or.inr ?_
        intro hcon
        rw [Option.some_inj] at hcon
        rw [hcon] at heq
        simp at heq
      · rintro (h1 | h2)
        · exact absurd h1 (by simp)
        · have hne : h ≠ c := fun e => h2 (by rw [e])
          simp [hne]
  · intro n pb e1 e2 l1 l2 hs1 hs2 hperm
    unfold hashE
    rw [hs1, hs2]
    show some (dumps (.obj l1)) = some (dumps (.obj l2))
    rw [dumps_obj_perm hperm]

/-- Fixture: a pathbuilder with one bundle `B` (group record `gB`) holding a
single scalar `string` field `f1` (record `p1`). -/
def pbB : PB :=
  (add_path (add_path PB.empty ⟨"gB", "0", "B", "B", "", true, true⟩).2
    ⟨"p1", "gB", "B", "f1", "string", false, true⟩).2

/-- Fixture: an entity of bundle `B` with one scalar field value. -/
def entW : Entity := .mk "B" [("f1", [.jval (.str "x")])] none none []

/-- Fixture: an entity of bundle `B` with two unused fields in one order. -/
def entU1 : Entity := .mk "B" [] none none [("a", .null), ("b", .null)]

/-- Fixture: the same entity with the unused fields in the opposite order. -/
def entU2 : Entity := .mk "B" [] none none [("b", .null), ("a", .null)]

/-- C7 witness: both parts of the fingerprint statement at concrete inputs;
the two serializations differ exactly by the order of the keys `a` and `b`. -/
theorem C7_witness :
    (modifiedE 1 pbB entW = some true ↔
      (entW.saved_hash = none ∨ entW.saved_hash ≠ some ((hashE 1 pbB entW).getD ""))) ∧
    hashE 1 pbB entU1 = hashE 1 pbB entU2 :=
  ⟨C7_modified_fingerprint.1 1 pbB entW ((hashE 1 pbB entW).getD "") rfl,
   C7_modified_fingerprint.2 1 pbB entU1 entU2
    [("bundle", .arr [.obj [("target_id", .str "B"), ("target_type", .str "wisski_bundle")]]),
      ("a", .null), ("b", .null)]
    [("bundle", .arr [.obj [("target_id", .str "B"), ("target_type", .str "wisski_bundle")]]),
      ("b", .null), ("a", .null)]
    rfl rfl (by decide)⟩

/-! ### Claim C9: `load` replaces the field state -/

theorem setSaved_fields (e : Entity) (h : Option String) : (e.setSaved h).fields = e.fields := rfl

theorem setSaved_unused (e : Entity) (h : Option String) :
    (e.setSaved h).unused_fields = e.unused_fields := rfl

theorem setSaved_bundle (e : Entity) (h : Option String) :
    (e.setSaved h).bundle_id = e.bundle_id := rfl

theorem setSaved_uri (e : Entity) (h : Option String) : (e.setSaved h).uri = e.uri := rfl

theorem mark_unmodified_elim {n : Nat} {pb : PB} {e e2 : Entity}
    (h : mark_unmodified n pb e = some e2) : ∃ hs, e2 = e.setSaved (some hs) := by
  unfold mark_unmodified at h
  cases hh : hashE n pb e with
  | none => rw [hh] at h; exact absurd h (by simp)
  | some s =>
    rw [hh] at h
    exact ⟨s, (Option.some_inj.mp h).symm⟩

theorem load_succ_eq (n : Nat) (pb : PB) (e : Entity) (data : List (String × JVal)) (m : Bool) :
    load (n + 1) pb e data m =
      match loadItemsAux pb (fun subL => load n pb Entity.fresh subL m) data
          ⟨e.bundle_id, e.uri, [], []⟩ with
      | none => none
      | some st =>
        if m then some (.mk st.bundle_id st.fields st.uri e.saved_hash st.unused)
        else mark_unmodified (n + 1) pb (.mk st.bundle_id st.fields st.uri e.saved_hash st.unused) :=
  rfl


/-- The updated fields dict of the known-path branch of `loadStep`. -/
def fields2Of (fl : List (String × List Value)) (k : String) (nfv : List Value) :
    List (String × List Value) :=
  let fields1 := if containsKey fl k then fl else fl ++ [(k, [])]
  if nfv.length ≠ 0 then dictInsert fields1 k nfv else fields1

/-- Exhaustive description of a successful `loadStep`. -/
theorem loadStep_cases {pb : PB} {deser : List (String × JVal) → Option Entity}
    {k : String} {v : JVal} {st st2 : LoadSt} (h : loadStep pb deser k v st = some st2) :
    (k = "bundle" ∧ ∃ b, parseBundleMarker v = some b ∧ st2 = { st with bundle_id := b }) ∨
    (k ≠ "bundle" ∧ k = "wisski_uri" ∧
      ∃ u, parseUriMarker v = some u ∧ st2 = { st with uri := some u }) ∨
    (k ≠ "bundle" ∧ k ≠ "wisski_uri" ∧ get_path_for_id pb k = none ∧
      st2 = { st with unused := dictInsert st.unused k v }) ∨
    (k ≠ "bundle" ∧ k ≠ "wisski_uri" ∧
      ∃ p items nfv, get_path_for_id pb k = some p ∧ v = .arr items ∧
        loadValuesAux deser p.fieldtype items = some nfv ∧
        st2 = { st with fields := fields2Of st.fields k nfv }) := by
  unfold loadStep at h
  split at h
  · rename_i hb
    split at h
    · rename_i b hp
      exact Or.inl ⟨by simpa using hb, b, hp, (Option.some_inj.mp h).symm⟩
    · exact absurd h (by simp)
  · rename_i hb
    split at h
    · rename_i hu
      split at h
      · rename_i u hp
        exact Or.inr (Or.inl ⟨by simpa using hb, by simpa using hu, u, hp,
          (Option.some_inj.mp h).symm⟩)
      · exact absurd h (by simp)
    · rename_i hu
      split at h
      · rename_i hgp
        exact Or.inr (Or.inr (Or.inl ⟨by simpa using hb, by simpa using hu, hgp,
          (Option.some_inj.mp h).symm⟩))
      · rename_i p hgp
        split at h
        · rename_i items
          split at h
          · exact absurd h (by simp)
          · rename_i nfv hlv
            refine Or.inr (Or.inr (Or.inr ⟨by simpa using hb, by simpa using hu,
              p, items, nfv, hgp, rfl, hlv, ?_⟩))
            exact (Option.some_inj.mp h).symm
        · exact absurd h (by simp)

theorem length_ne_zero_exists {α : Type} {l : List α} (h : l ≠ []) : l.length ≠ 0 := by
  cases l with
  | nil => exact absurd rfl h
  | cons a as => simp

theorem not_mem_keys_containsKey {α : Type} {l : List (String × α)} {k : String}
    (h : k ∉ l.map Prod.fst) : containsKey l k = false := by
  cases hc : containsKey l k
  · rfl
  · exfalso
    obtain ⟨p, hp, hpf⟩ := List.any_eq_true.mp hc
    exact h (List.mem_map.mpr ⟨p, hp, by simpa using hpf⟩)

theorem bool_or_elim {a b : Bool} (h : (a || b) = true) : a = true ∨ b = true := by
  simpa using h

theorem fields2Of_fresh {fl : List (String × List Value)} {k : String} (nfv : List Value)
    (h : containsKey fl k = false) : fields2Of fl k nfv = fl ++ [(k, nfv)] := by
  simp only [fields2Of]
  rw [if_neg (show ¬containsKey fl k = true by simp [h])]
  by_cases hl : nfv.length ≠ 0
  · rw [if_pos hl]
    exact dictInsert_append_last _ _ h
  · rw [if_neg hl]
    have hnil : nfv = [] := by
      cases nfv with
      | nil => rfl
      | cons a as => simp at hl
    rw [hnil]

theorem containsKey_append_single {α : Type} {fl : List (String × α)} {k0 k : String} {x : α}
    (h : containsKey (fl ++ [(k0, x)]) k = true) : containsKey fl k = true ∨ k = k0 := by
  rw [containsKey_append, containsKey_cons] at h
  rcases bool_or_elim h with h1 | h2
  · exact Or.inl h1
  · rcases bool_or_elim h2 with h3 | h4
    · exact Or.inr (by simpa using h3 : k0 = k).symm
    · simp [containsKey] at h4

theorem containsKey_fields2Of {fl : List (String × List Value)} {k0 k : String}
    {nfv : List Value} (h : containsKey (fields2Of fl k0 nfv) k = true) :
    containsKey fl k = true ∨ k = k0 := by
  simp only [fields2Of] at h
  by_cases c2 : nfv.length ≠ 0
  · rw [if_pos c2, containsKey_dictInsert] at h
    rcases bool_or_elim h with h1 | h2
    · by_cases c1 : containsKey fl k0 = true
      · rw [if_pos c1] at h1
        exact Or.inl h1
      · rw [if_neg c1] at h1
        exact containsKey_append_single h1
    · exact Or.inr (by simpa using h2)
  · rw [if_neg c2] at h
    by_cases c1 : containsKey fl k0 = true
    · rw [if_pos c1] at h
      exact Or.inl h
    · rw [if_neg c1] at h
      exact containsKey_append_single h

theorem loadStep_fields_sub {pb : PB} {deser : List (String × JVal) → Option Entity}
    {k0 : String} {v : JVal} {st st2 : LoadSt} (h : loadStep pb deser k0 v st = some st2)
    (k : String) (hk : containsKey st2.fields k = true) :
    containsKey st.fields k = true ∨ (k = k0 ∧ (get_path_for_id pb k).isSome = true) := by
  rcases loadStep_cases h with ⟨_, b, _, hst⟩ | ⟨_, _, u, _, hst⟩ | ⟨_, _, _, hst⟩ |
    ⟨_, _, p, items, nfv, hgp, _, _, hst⟩
  · rw [hst] at hk
    exact Or.inl hk
  · rw [hst] at hk
    exact Or.inl hk
  · rw [hst] at hk
    exact Or.inl hk
  · rw [hst] at hk
    rcases containsKey_fields2Of hk with h1 | h2
    · exact Or.inl h1
    · exact Or.inr ⟨h2, by rw [h2, hgp]; rfl⟩

theorem loadItemsAux_fields_keys (pb : PB) (d : List (String × JVal) → Option Entity) :
    ∀ (data : List (String × JVal)) (st st2 : LoadSt),
      loadItemsAux pb d data st = some st2 → ∀ k, containsKey st2.fields k = true →
        containsKey st.fields k = true ∨
          (containsKey data k = true ∧ (get_path_for_id pb k).isSome = true)
  | [], st, st2, h, k, hk => by
    unfold loadItemsAux at h
    rw [← Option.some_inj.mp h] at hk
    exact Or.inl hk
  | (k0, v) :: rest, st, st2, h, k, hk => by
    unfold loadItemsAux at h
    cases hs : loadStep pb d k0 v st with
    | none =>
      rw [hs] at h
      exact absurd h (by simp)
    | some st1 =>
      rw [hs] at h
      rcases loadItemsAux_fields_keys pb d rest st1 st2 h k hk with h1 | ⟨h2, h3⟩
      · rcases loadStep_fields_sub hs k h1 with h4 | ⟨h5, h6⟩
        · exact Or.inl h4
        · exact Or.inr ⟨by rw [containsKey_cons]; simp [h5], h6⟩
      · exact Or.inr ⟨by rw [containsKey_cons, h2]; simp, h3⟩

theorem loadStep_unused_lookup {pb : PB} {deser : List (String × JVal) → Option Entity}
    {k0 : String} {v : JVal} {st st2 : LoadSt} (h : loadStep pb deser k0 v st = some st2)
    (k : String) (hkb : k ≠ "bundle") (hku : k ≠ "wisski_uri")
    (hkp : get_path_for_id pb k = none) :
    lookupKey st2.unused k = if k = k0 then some v else lookupKey st.unused k := by
  rcases loadStep_cases h with ⟨hk0, b, _, hst⟩ | ⟨_, hk0, u, _, hst⟩ | ⟨_, _, hgp, hst⟩ |
    ⟨_, _, p, items, nfv, hgp, _, _, hst⟩
  · rw [hst, if_neg (fun e => hkb (e.trans hk0))]
  · rw [hst, if_neg (fun e => hku (e.trans hk0))]
  · rw [hst]
    by_cases hk : k = k0
    · subst hk
      rw [if_pos rfl]
      exact lookupKey_dictInsert_self st.unused k v
    · rw [if_neg hk]
      exact lookupKey_dictInsert_ne st.unused v hk
  · have hk : k ≠ k0 := fun e => by rw [e, hgp] at hkp; exact absurd hkp (by simp)
    rw [hst, if_neg hk]

theorem loadStep_unused_nodup {pb : PB} {deser : List (String × JVal) → Option Entity}
    {k0 : String} {v : JVal} {st st2 : LoadSt} (h : loadStep pb deser k0 v st = some st2)
    (hnd : (st.unused.map Prod.fst).Nodup) : (st2.unused.map Prod.fst).Nodup := by
  rcases loadStep_cases h with ⟨_, b, _, hst⟩ | ⟨_, _, u, _, hst⟩ | ⟨_, _, _, hst⟩ |
    ⟨_, _, p, items, nfv, _, _, _, hst⟩ <;> rw [hst]
  · exact hnd
  · exact hnd
  · exact keysNodup_dictInsert v hnd
  · exact hnd

theorem loadItemsAux_unused_lookup (pb : PB) (d : List (String × JVal) → Option Entity) :
    ∀ (data : List (String × JVal)) (st st2 : LoadSt),
      loadItemsAux pb d data st = some st2 → (data.map Prod.fst).Nodup →
      ∀ k, k ≠ "bundle" → k ≠ "wisski_uri" → get_path_for_id pb k = none →
        lookupKey st2.unused k = (lookupKey data k).orElse (fun _ => lookupKey st.unused k)
  | [], st, st2, h, _, k, _, _, _ => by
    unfold loadItemsAux at h
    rw [← Option.some_inj.mp h]
    simp [lookupKey]
  | (k0, v) :: rest, st, st2, h, hnd, k, hkb, hku, hkp => by
    unfold loadItemsAux at h
    cases hs : loadStep pb d k0 v st with
    | none =>
      rw [hs] at h
      exact absurd h (by simp)
    | some st1 =>
      rw [hs] at h
      simp only [List.map_cons, List.nodup_cons] at hnd
      have ih := loadItemsAux_unused_lookup pb d rest st1 st2 h hnd.2 k hkb hku hkp
      have hstep := loadStep_unused_lookup hs k hkb hku hkp
      rw [lookupKey_cons]
      by_cases hk : k = k0
      · subst hk
        rw [if_pos rfl] at hstep ⊢
        have hrest : lookupKey rest k = none :=
          lookupKey_eq_none_of_not_contains (not_mem_keys_containsKey hnd.1)
        rw [ih, hrest, hstep]
        rfl
      · rw [if_neg (fun e => hk e.symm)]
        rw [if_neg hk] at hstep
        rw [ih, hstep]

theorem loadItemsAux_unused_nodup (pb : PB) (d : List (String × JVal) → Option Entity) :
    ∀ (data : List (String × JVal)) (st st2 : LoadSt),
      loadItemsAux pb d data st = some st2 → (st.unused.map Prod.fst).Nodup →
        (st2.unused.map Prod.fst).Nodup
  | [], st, st2, h, hnd => by
    unfold loadItemsAux at h
    rw [← Option.some_inj.mp h]
    exact hnd
  | (k0, v) :: rest, st, st2, h, hnd => by
    unfold loadItemsAux at h
    cases hs : loadStep pb d k0 v st with
    | none =>
      rw [hs] at h
      exact absurd h (by simp)
    | some st1 =>
      rw [hs] at h
      exact loadItemsAux_unused_nodup pb d rest st1 st2 h (loadStep_unused_nodup hs hnd)

theorem loadStep_bundle {pb : PB} {d : List (String × JVal) → Option Entity} {v : JVal}
    {b : String} (st : LoadSt) (hp : parseBundleMarker v = some b) :
    loadStep pb d "bundle" v st = some { st with bundle_id := b } := by
  unfold loadStep
  rw [hp]
  rfl

theorem loadStep_uri {pb : PB} {d : List (String × JVal) → Option Entity} {v : JVal}
    {u : String} (st : LoadSt) (hp : parseUriMarker v = some u) :
    loadStep pb d "wisski_uri" v st = some { st with uri := some u } := by
  unfold loadStep
  rw [hp]
  rfl

theorem loadStep_unknown {pb : PB} {d : List (String × JVal) → Option Entity} {k0 : String}
    (v : JVal) (st : LoadSt) (hkb : k0 ≠ "bundle") (hku : k0 ≠ "wisski_uri")
    (hgp : get_path_for_id pb k0 = none) :
    loadStep pb d k0 v st = some { st with unused := dictInsert st.unused k0 v } := by
  unfold loadStep
  simp only [beq_eq_false_iff_ne.mpr hkb, beq_eq_false_iff_ne.mpr hku, Bool.false_eq_true,
    if_false, hgp]

theorem loadStep_known {pb : PB} {d : List (String × JVal) → Option Entity} {k0 : String}
    {p : PathRecord} {items : List JVal} {nfv : List Value} (st : LoadSt)
    (hkb : k0 ≠ "bundle") (hku : k0 ≠ "wisski_uri") (hgp : get_path_for_id pb k0 = some p)
    (hlv : loadValuesAux d p.fieldtype items = some nfv) :
    loadStep pb d k0 (.arr items) st = some { st with fields := fields2Of st.fields k0 nfv } := by
  unfold loadStep
  simp only [beq_eq_false_iff_ne.mpr hkb, beq_eq_false_iff_ne.mpr hku, Bool.false_eq_true,
    if_false, hgp, hlv]
  rfl

theorem loadStep_indep (b2 : String) (u2 : Option String) {pb : PB}
    {d : List (String × JVal) → Option Entity} {k0 : String} {v : JVal} {b1 : String}
    {u1 : Option String} {fl : List (String × List Value)} {un : List (String × JVal)}
    {st1 : LoadSt} (h : loadStep pb d k0 v ⟨b1, u1, fl, un⟩ = some st1) :
    ∃ st2, loadStep pb d k0 v ⟨b2, u2, fl, un⟩ = some st2 ∧
      st1.fields = st2.fields ∧ st1.unused = st2.unused := by
  rcases loadStep_cases h with ⟨hk0, b, hp, hst⟩ | ⟨hkb, hk0, u, hp, hst⟩ |
    ⟨hkb, hku, hgp, hst⟩ | ⟨hkb, hku, p, items, nfv, hgp, hv, hlv, hst⟩
  · subst hk0
    exact ⟨⟨b, u2, fl, un⟩, loadStep_bundle _ hp, by rw [hst], by rw [hst]⟩
  · subst hk0
    exact ⟨⟨b2, some u, fl, un⟩, loadStep_uri _ hp, by rw [hst], by rw [hst]⟩
  · exact ⟨⟨b2, u2, fl, dictInsert un k0 v⟩, loadStep_unknown v _ hkb hku hgp,
      by rw [hst], by rw [hst]⟩
  · subst hv
    exact ⟨⟨b2, u2, fields2Of fl k0 nfv, un⟩, loadStep_known _ hkb hku hgp hlv,
      by rw [hst], by rw [hst]⟩

theorem loadItemsAux_indep (pb : PB) (d : List (String × JVal) → Option Entity) :
    ∀ (data : List (String × JVal)) (b1 b2 : String) (u1 u2 : Option String)
      (fl : List (String × List Value)) (un : List (String × JVal)) (st1 : LoadSt),
      loadItemsAux pb d data ⟨b1, u1, fl, un⟩ = some st1 →
      ∃ st2, loadItemsAux pb d data ⟨b2, u2, fl, un⟩ = some st2 ∧
        st1.fields = st2.fields ∧ st1.unused = st2.unused
  | [], b1, b2, u1, u2, fl, un, st1, h => by
    unfold loadItemsAux at h ⊢
    refine ⟨⟨b2, u2, fl, un⟩, rfl, ?_, ?_⟩ <;> rw [← Option.some_inj.mp h]
  | (k0, v) :: rest, b1, b2, u1, u2, fl, un, st1, h => by
    unfold loadItemsAux at h ⊢
    cases hs : loadStep pb d k0 v ⟨b1, u1, fl, un⟩ with
    | none =>
      rw [hs] at h
      exact absurd h (by simp)
    | some stm =>
      rw [hs] at h
      obtain ⟨sb, su, sf, sun⟩ := stm
      obtain ⟨stm2, hs2, hf, hu⟩ := loadStep_indep b2 u2 hs
      obtain ⟨tb, tu, tf, tun⟩ := stm2
      simp only at hf hu
      subst hf
      subst hu
      obtain ⟨st2, hrec, hfx, hux⟩ := loadItemsAux_indep pb d rest sb tb su tu sf sun st1 h
      rw [hs2]
      exact ⟨st2, hrec, hfx, hux⟩

theorem load_succ_some {n : Nat} {pb : PB} {e : Entity} {data : List (String × JVal)}
    {m : Bool} {st : LoadSt}
    (hli : loadItemsAux pb (fun subL => load n pb Entity.fresh subL m) data
      ⟨e.bundle_id, e.uri, [], []⟩ = some st) :
    load (n + 1) pb e data m =
      (if m then some (Entity.mk st.bundle_id st.fields st.uri e.saved_hash st.unused)
       else mark_unmodified (n + 1) pb
         (Entity.mk st.bundle_id st.fields st.uri e.saved_hash st.unused)) := by
  rw [load_succ_eq, hli]

theorem load_succ_none {n : Nat} {pb : PB} {e : Entity} {data : List (String × JVal)}
    {m : Bool}
    (hli : loadItemsAux pb (fun subL => load n pb Entity.fresh subL m) data
      ⟨e.bundle_id, e.uri, [], []⟩ = none) :
    load (n + 1) pb e data m = none := by
  rw [load_succ_eq, hli]

theorem load_succ_fields_unused {n : Nat} {pb : PB} {e e1 : Entity}
    {data : List (String × JVal)} {m : Bool} {st : LoadSt}
    (hli : loadItemsAux pb (fun subL => load n pb Entity.fresh subL m) data
      ⟨e.bundle_id, e.uri, [], []⟩ = some st)
    (h : load (n + 1) pb e data m = some e1) :
    e1.fields = st.fields ∧ e1.unused_fields = st.unused := by
  rw [load_succ_some hli] at h
  cases m with
  | true =>
    rw [if_pos rfl] at h
    rw [← Option.some_inj.mp h]
    exact ⟨rfl, rfl⟩
  | false =>
    rw [if_neg (by simp)] at h
    obtain ⟨hsv, he⟩ := mark_unmodified_elim h
    rw [he, setSaved_fields, setSaved_unused]
    exact ⟨rfl, rfl⟩

/-- C9: `Entity.load` replaces the field state rather than merging into it.
First part: every key of the reloaded entity's `fields` dict stems from the
wire data (anything held before the call is discarded, a field not mentioned
in `data` is absent).  Second part: the resulting `fields` and
`unused_fields` do not depend on the entity's prior field state at all — two
entities fed the same data end up with identical `fields` and
`unused_fields`. -/
theorem C9_load_replaces_fields :
    (∀ n pb e data m e1, load n pb e data m = some e1 → ∀ k,
        containsKey e1.fields k = true → containsKey data k = true) ∧
    (∀ n pb e f data m r s, load n pb e data m = some r → load n pb f data m = some s →
        r.fields = s.fields ∧ r.unused_fields = s.unused_fields) := by
  constructor
  · intro n pb e data m e1 h k hk
    cases n with
    | zero => exact absurd h (by simp [load])
    | succ n =>
      cases hli : loadItemsAux pb (fun subL => load n pb Entity.fresh subL m) data
          ⟨e.bundle_id, e.uri, [], []⟩ with
      | none => exact absurd (h.symm.trans (load_succ_none hli)) (by simp)
      | some st =>
        obtain ⟨hf, _⟩ := load_succ_fields_unused hli h
        rw [hf] at hk
        rcases loadItemsAux_fields_keys pb _ data _ st hli k hk with h1 | ⟨h2, _⟩
        · simp [containsKey] at h1
        · exact h2
  · intro n pb e f data m r s hr hs
    cases n with
    | zero => exact absurd hr (by simp [load])
    | succ n =>
      cases hli1 : loadItemsAux pb (fun subL => load n pb Entity.fresh subL m) data
          ⟨e.bundle_id, e.uri, [], []⟩ with
      | none => exact absurd (hr.symm.trans (load_succ_none hli1)) (by simp)
      | some st1 =>
        obtain ⟨st2, hli2, hf12, hu12⟩ :=
          loadItemsAux_indep pb _ data e.bundle_id f.bundle_id e.uri f.uri [] [] st1 hli1
        obtain ⟨hrf, hru⟩ := load_succ_fields_unused hli1 hr
        obtain ⟨hsf, hsu⟩ := load_succ_fields_unused hli2 hs
        exact ⟨by rw [hrf, hsf, hf12], by rw [hru, hsu, hu12]⟩

/-- Fixture: wire data for bundle `B` with one known field `f1` and no
unknown keys. -/
def dataW : List (String × JVal) :=
  [("bundle", .arr [.obj [("target_id", .str "B"), ("target_type", .str "wisski_bundle")]]),
   ("f1", .arr [.obj [("value", .str "x")]])]

/-- Fixture: an entity with junk prior state, to exercise the reset. -/
def entJunk : Entity :=
  .mk "Z" [("old", [.jval (.str "o")])] (some "u") (some "h") [("ghost", .null)]

/-- C9 witness: both parts at concrete inputs: the key `f1` that the loaded
entity carries is a key of the wire data, and loading the same data into a
fresh entity and into an entity with junk fields yields the same `fields`
and `unused_fields`. -/
theorem C9_witness :
    containsKey dataW "f1" = true ∧
    (((load 2 pbB Entity.fresh dataW true).getD Entity.fresh).fields =
        ((load 2 pbB entJunk dataW true).getD Entity.fresh).fields ∧
      ((load 2 pbB Entity.fresh dataW true).getD Entity.fresh).unused_fields =
        ((load 2 pbB entJunk dataW true).getD Entity.fresh).unused_fields) :=
  ⟨C9_load_replaces_fields.1 2 pbB Entity.fresh dataW true
      ((load 2 pbB Entity.fresh dataW true).getD Entity.fresh) rfl "f1" rfl,
   C9_load_replaces_fields.2 2 pbB Entity.fresh entJunk dataW true
      ((load 2 pbB Entity.fresh dataW true).getD Entity.fresh)
      ((load 2 pbB entJunk dataW true).getD Entity.fresh) rfl rfl⟩

/-! ### Claim C10: `serialize` emits only bundle-children fields -/

/-- The dict `entity_data` holds before the children loop of
`Entity.serialize` (api.py lines 250-260): the bundle marker and, when the
uri is truthy, the uri marker. -/
def serBase (e : Entity) : List (String × JVal) :=
  let base : List (String × JVal) :=
    [("bundle", .arr [.obj [("target_id", .str e.bundle_id), ("target_type", .str WISSKI_BUNDLE)]])]
  match e.uri with
  | some u => if u ≠ "" then base ++ [("wisski_uri", .arr [.obj [("value", .str u)]])] else base
  | none => base

theorem serialize_succ_eq (n : Nat) (pb : PB) (e : Entity) :
    serialize (n + 1) pb e =
      (match get_subtree_for_field_id pb e.bundle_id with
       | none => none
       | some node =>
         match serFieldsAux pb.paths e.fields (serialize n pb) node.children (serBase e) with
         | none => none
         | some acc => some (.obj (dictUpdate acc e.unused_fields))) := rfl

theorem containsKey_serBase {e : Entity} {k : String}
    (h : containsKey (serBase e) k = true) : k = "bundle" ∨ k = "wisski_uri" := by
  cases hu : e.uri with
  | none =>
    simp only [serBase, hu] at h
    rw [containsKey_cons] at h
    rcases bool_or_elim h with h1 | h2
    · exact Or.inl (show ("bundle" : String) = k by simpa using h1).symm
    · simp [containsKey] at h2
  | some u =>
    simp only [serBase, hu] at h
    by_cases hne : u ≠ ""
    · rw [if_pos hne, containsKey_append, containsKey_cons, containsKey_cons] at h
      rcases bool_or_elim h with h1 | h2
      · rcases bool_or_elim h1 with h3 | h4
        · exact Or.inl (show ("bundle" : String) = k by simpa using h3).symm
        · simp [containsKey] at h4
      · rcases bool_or_elim h2 with h3 | h4
        · exact Or.inr (show ("wisski_uri" : String) = k by simpa using h3).symm
        · simp [containsKey] at h4
    · rw [if_neg hne, containsKey_cons] at h
      rcases bool_or_elim h with h1 | h2
      · exact Or.inl (show ("bundle" : String) = k by simpa using h1).symm
      · simp [containsKey] at h2

theorem serFieldsAux_keys (paths : List PathRecord) (fields : List (String × List Value))
    (ser : Entity → Option JVal) :
    ∀ (cs : List Tree) (acc out : List (String × JVal)),
      serFieldsAux paths fields ser cs acc = some out → ∀ k, containsKey out k = true →
        containsKey acc k = true ∨ (containsKey fields k = true ∧
          ∃ c, c ∈ cs ∧ ∃ p, lookupPath paths c.id = some p ∧ p.field = k)
  | [], acc, out, h, k, hk => by
    unfold serFieldsAux at h
    rw [← Option.some_inj.mp h] at hk
    exact Or.inl hk
  | c :: cs, acc, out, h, k, hk => by
    unfold serFieldsAux at h
    cases hlp : lookupPath paths c.id with
    | none =>
      simp only [hlp] at h
      exact absurd h (by simp)
    | some p =>
      simp only [hlp] at h
      cases hlk : lookupKey fields p.field with
      | none =>
        simp only [hlk] at h
        rcases serFieldsAux_keys paths fields ser cs acc out h k hk with h1 |
          ⟨h2, cc, hcc, q, hq, hqf⟩
        · exact Or.inl h1
        · exact Or.inr ⟨h2, cc, List.mem_cons_of_mem c hcc, q, hq, hqf⟩
      | some vs =>
        simp only [hlk] at h
        cases hsv : serValuesAux ser p vs with
        | none =>
          simp only [hsv] at h
          exact absurd h (by simp)
        | some fd =>
          simp only [hsv] at h
          rcases serFieldsAux_keys paths fields ser cs _ out h k hk with h1 |
            ⟨h2, cc, hcc, q, hq, hqf⟩
          · rw [containsKey_dictInsert] at h1
            rcases bool_or_elim h1 with h3 | h4
            · exact Or.inl h3
            · have hkf : k = p.field := by simpa using h4
              refine Or.inr ⟨?_, c, List.mem_cons_self c cs, p, hlp, hkf.symm⟩
              rw [hkf]
              exact contains_of_lookupKey hlk
          · exact Or.inr ⟨h2, cc, List.mem_cons_of_mem c hcc, q, hq, hqf⟩

/-- C10: `serialize` emits, besides the `bundle` and `wisski_uri` markers and
the verbatim `unused_fields`, only keys that are the field id of a child path
of the entity's bundle node *and* present in the entity's `fields` dict — any
`fields` entry whose key is not among the bundle children is silently
omitted. -/
theorem C10_serialize_emits_only_children (n : Nat) (pb : PB) (e : Entity)
    (l : List (String × JVal)) (node : Tree) (k : String)
    (hs : serialize n pb e = some (.obj l))
    (hn : get_subtree_for_field_id pb e.bundle_id = some node)
    (hk : containsKey l k = true) :
    k = "bundle" ∨ k = "wisski_uri" ∨ containsKey e.unused_fields k = true ∨
      (containsKey e.fields k = true ∧
        ∃ c, c ∈ node.children ∧ ∃ p, lookupPath pb.paths c.id = some p ∧ p.field = k) := by
  cases n with
  | zero => exact absurd hs (by simp [serialize])
  | succ n =>
    rw [serialize_succ_eq] at hs
    simp only [hn] at hs
    cases hsf : serFieldsAux pb.paths e.fields (serialize n pb) node.children (serBase e) with
    | none =>
      simp only [hsf] at hs
      exact absurd hs (by simp)
    | some acc =>
      simp only [hsf] at hs
      have h2 := Option.some_inj.mp hs
      have hl : dictUpdate acc e.unused_fields = l := by injection h2
      rw [← hl, containsKey_dictUpdate] at hk
      rcases bool_or_elim hk with h1 | h2x
      · rcases serFieldsAux_keys pb.paths e.fields (serialize n pb) node.children (serBase e)
          acc hsf k h1 with h3 | ⟨h4, h5⟩
        · rcases containsKey_serBase h3 with h6 | h7
          · exact Or.inl h6
          · exact Or.inr (Or.inl h7)
        · exact Or.inr (Or.inr (Or.inr ⟨h4, h5⟩))
      · exact Or.inr (Or.inr (Or.inl h2x))

/-- C10 witness: the statement at the concrete fixture; the emitted key `f1`
is indeed the field of the bundle child path `p1`. -/
theorem C10_witness :
    "f1" = "bundle" ∨ "f1" = "wisski_uri" ∨ containsKey entW.unused_fields "f1" = true ∨
      (containsKey entW.fields "f1" = true ∧
        ∃ c, c ∈ (Tree.node "gB" [Tree.node "p1" []]).children ∧
          ∃ p, lookupPath pbB.paths c.id = some p ∧ p.field = "f1") :=
  C10_serialize_emits_only_children 2 pbB entW
    [("bundle", .arr [.obj [("target_id", .str "B"), ("target_type", .str "wisski_bundle")]]),
     ("f1", .arr [.obj [("value", .str "x")]])]
    (Tree.node "gB" [Tree.node "p1" []]) "f1" rfl rfl rfl

/-! ### Claim C6: unknown fields survive a load/serialize cycle -/

/-- C6: a wire key with no matching path in the pathbuilder is stashed
verbatim by `load` into `unused_fields` and merged verbatim back by
`serialize`: the output carries the key with the identical value. -/
theorem C6_unknown_field_preserved (n n2 : Nat) (pb : PB) (e : Entity)
    (data : List (String × JVal)) (m : Bool) (k : String) (v : JVal) (e1 : Entity)
    (l : List (String × JVal))
    (hnodup : (data.map Prod.fst).Nodup)
    (hpath : get_path_for_id pb k = none)
    (hkb : k ≠ "bundle") (hku : k ≠ "wisski_uri")
    (hv : lookupKey data k = some v)
    (hl : load n pb e data m = some e1)
    (hs : serialize n2 pb e1 = some (.obj l)) :
    lookupKey l k = some v := by
  cases n with
  | zero => exact absurd hl (by simp [load])
  | succ n =>
    cases hli : loadItemsAux pb (fun subL => load n pb Entity.fresh subL m) data
        ⟨e.bundle_id, e.uri, [], []⟩ with
    | none => exact absurd (hl.symm.trans (load_succ_none hli)) (by simp)
    | some st =>
      obtain ⟨_, hu⟩ := load_succ_fields_unused hli hl
      have hlu : lookupKey st.unused k = some v := by
        rw [loadItemsAux_unused_lookup pb _ data _ st hli hnodup k hkb hku hpath, hv]
        rfl
      have hnd : (e1.unused_fields.map Prod.fst).Nodup := by
        rw [hu]
        exact loadItemsAux_unused_nodup pb _ data _ st hli (by simp)
      cases n2 with
      | zero => exact absurd hs (by simp [serialize])
      | succ n2 =>
        rw [serialize_succ_eq] at hs
        cases hn : get_subtree_for_field_id pb e1.bundle_id with
        | none =>
          simp only [hn] at hs
          exact absurd hs (by simp)
        | some node =>
          simp only [hn] at hs
          cases hsf : serFieldsAux pb.paths e1.fields (serialize n2 pb) node.children
              (serBase e1) with
          | none =>
            simp only [hsf] at hs
            exact absurd hs (by simp)
          | some acc =>
            simp only [hsf] at hs
            have h2 := Option.some_inj.mp hs
            have hleq : dictUpdate acc e1.unused_fields = l := by injection h2
            rw [← hleq, lookupKey_dictUpdate _ _ _ hnd, hu, hlu]
            rfl

/-- Fixture: the same wire data extended with a key `zz` unknown to the
pathbuilder. -/
def dataU : List (String × JVal) := dataW ++ [("zz", .str "q")]

/-- C6 witness: the statement at the concrete fixture. -/
theorem C6_witness :
    lookupKey
      [("bundle", JVal.arr [.obj [("target_id", .str "B"), ("target_type", .str "wisski_bundle")]]),
       ("f1", JVal.arr [.obj [("value", .str "x")]]), ("zz", JVal.str "q")] "zz" =
      some (JVal.str "q") :=
  C6_unknown_field_preserved 2 2 pbB Entity.fresh dataU true "zz" (.str "q")
    ((load 2 pbB Entity.fresh dataU true).getD Entity.fresh)
    [("bundle", JVal.arr [.obj [("target_id", .str "B"), ("target_type", .str "wisski_bundle")]]),
     ("f1", JVal.arr [.obj [("value", .str "x")]]), ("zz", JVal.str "q")]
    (by decide) rfl (by decide) (by decide) rfl rfl rfl

/-! ### Claim C5: the serialize/load round trip

The round trip of the claim fails as stated (see the `link` counterexample).
The amended statement holds for well-formed entities: every field key maps
through a unique child path of the bundle node and resolves back to the same
record via `get_path_for_id`, scalar values are strings of a codec-safe
field type, group/reference values are non-empty well-formed sub-entities,
`unused_fields` is empty (it is only ever populated by `load`) and the uri is
not the falsy empty string. -/

/-- Non-recursive well-formedness facts about one field key of an entity:
not a marker key, and matched by exactly the child record that
`get_path_for_id` also resolves to. -/
def FieldOk (pb : PB) (node : Tree) (k : String) : Prop :=
  k ≠ "bundle" ∧ k ≠ "wisski_uri" ∧
    ∃ c, c ∈ node.children ∧ ∃ p, lookupPath pb.paths c.id = some p ∧ p.field = k ∧
      get_path_for_id pb k = some p

mutual

/-- Well-formedness of a single field value under its path record. -/
inductive WFv (pb : PB) : PathRecord → Value → Prop where
  | scalar : ∀ p s, p.fieldtype ≠ "link" → p.fieldtype ≠ "file" →
      WFv pb p (.jval (.str s))
  | ent : ∀ p sub, (p.is_group = true ∨ p.fieldtype = "entity_reference") →
      sub.fields ≠ [] → WFe pb sub → WFv pb p (.entity sub)

/-- Well-formedness of a field value list. -/
inductive WFvs (pb : PB) : PathRecord → List Value → Prop where
  | nil : ∀ p, WFvs pb p []
  | cons : ∀ p v vs, WFv pb p v → WFvs pb p vs → WFvs pb p (v :: vs)

/-- Well-formedness of an entity against the pathbuilder.  The non-recursive
facts about each field key live in `FieldOk` (declared just before this
block); the recursive condition on the values is phrased through the record
that `get_path_for_id` resolves, which `FieldOk` pins to the child record. -/
inductive WFe (pb : PB) : Entity → Prop where
  | intro : ∀ e node,
      get_subtree_for_field_id pb e.bundle_id = some node →
      (∀ c, c ∈ node.children → (lookupPath pb.paths c.id).isSome = true) →
      (node.children.filterMap
        (fun c => (lookupPath pb.paths c.id).map (fun p => p.field))).Nodup →
      e.unused_fields = [] →
      e.uri ≠ some "" →
      (∀ k vs, lookupKey e.fields k = some vs → FieldOk pb node k) →
      (∀ k vs, lookupKey e.fields k = some vs → ∀ p, get_path_for_id pb k = some p →
        WFvs pb p vs) →
      WFe pb e

end

mutual

/-- Content equivalence of field values: scalars are equal, sub-entities are
equivalent. -/
inductive VEqv : Value → Value → Prop where
  | jval : ∀ j, VEqv (.jval j) (.jval j)
  | ent : ∀ a b, EEqv a b → VEqv (.entity a) (.entity b)

/-- Pointwise content equivalence of value lists (same order and length). -/
inductive VsEqv : List Value → List Value → Prop where
  | nil : VsEqv [] []
  | cons : ∀ v1 v2 t1 t2, VEqv v1 v2 → VsEqv t1 t2 → VsEqv (v1 :: t1) (v2 :: t2)

/-- Content equivalence of entities: same bundle, uri and unused fields, the
same field keys, and pointwise equivalent value lists; the `_saved_hash`
bookkeeping attribute is deliberately not compared. -/
inductive EEqv : Entity → Entity → Prop where
  | intro : ∀ a b, a.bundle_id = b.bundle_id → a.uri = b.uri →
      a.unused_fields = b.unused_fields →
      (∀ k, containsKey a.fields k = containsKey b.fields k) →
      (∀ k va vb, lookupKey a.fields k = some va → lookupKey b.fields k = some vb →
        VsEqv va vb) →
      EEqv a b

end

mutual

def valDepth : Value → Nat
  | .jval _ => 0
  | .entity e => entDepth e

def valsDepth : List Value → Nat
  | [] => 0
  | v :: vs => max (valDepth v) (valsDepth vs)

def fieldsDepth : List (String × List Value) → Nat
  | [] => 0
  | (_, vs) :: rest => max (valsDepth vs) (fieldsDepth rest)

/-- Nesting depth of an entity: the fuel needed by `serialize`/`load`. -/
def entDepth : Entity → Nat
  | .mk _ f _ _ _ => 1 + fieldsDepth f

end

theorem entDepth_eq (e : Entity) : entDepth e = 1 + fieldsDepth e.fields := by
  cases e
  rfl

theorem lookupKey_fieldsDepth {fl : List (String × List Value)} {k : String}
    {vs : List Value} (h : lookupKey fl k = some vs) : valsDepth vs ≤ fieldsDepth fl := by
  induction fl with
  | nil => simp [lookupKey] at h
  | cons p rest ih =>
    rw [lookupKey_cons] at h
    obtain ⟨pk, pvs⟩ := p
    by_cases hk : pk = k
    · rw [if_pos hk] at h
      rw [← Option.some_inj.mp h]
      show valsDepth pvs ≤ max (valsDepth pvs) (fieldsDepth rest)
      exact le_max_left _ _
    · rw [if_neg hk] at h
      calc valsDepth vs ≤ fieldsDepth rest := ih h
        _ ≤ max (valsDepth pvs) (fieldsDepth rest) := le_max_right _ _

theorem valsDepth_cons (v : Value) (vs : List Value) :
    valsDepth (v :: vs) = max (valDepth v) (valsDepth vs) := rfl

theorem format_value_no_entity (ft : String) (j : JVal) :
    containsKey (format_value ft j) "entity" = false := by
  unfold format_value
  split_ifs <;> simp [containsKey]

theorem serialize_setSaved (n : Nat) (pb : PB) (e : Entity) (h : Option String) :
    serialize n pb (e.setSaved h) = serialize n pb e := by
  cases n <;> rfl

theorem serBase_congr {a b : Entity} (h1 : a.bundle_id = b.bundle_id) (h2 : a.uri = b.uri) :
    serBase a = serBase b := by
  unfold serBase
  rw [h1, h2]

theorem not_containsKey_serBase {e : Entity} {k : String}
    (h1 : k ≠ "bundle") (h2 : k ≠ "wisski_uri") : containsKey (serBase e) k = false := by
  cases hc : containsKey (serBase e) k
  · rfl
  · rcases containsKey_serBase hc with h | h
    · exact absurd h h1
    · exact absurd h h2

theorem modifiedE_after_mark {n : Nat} {pb : PB} {e e2 : Entity}
    (h : mark_unmodified n pb e = some e2) : modifiedE n pb e2 = some false := by
  unfold mark_unmodified at h
  cases hh : hashE n pb e with
  | none =>
    rw [hh] at h
    exact absurd h (by simp)
  | some s =>
    rw [hh] at h
    rw [← Option.some_inj.mp h]
    show modifiedE n pb (e.setSaved (some s)) = some false
    unfold modifiedE
    show (hashE n pb (e.setSaved (some s))).map (fun c => !(s == c)) = some false
    unfold hashE at hh ⊢
    rw [serialize_setSaved, hh]
    simp

theorem EEqv_setSaved {a b : Entity} (h : EEqv a b) (hs : Option String) :
    EEqv a (b.setSaved hs) := by
  cases h with
  | intro a b h1 h2 h3 h4 h5 =>
    exact EEqv.intro a _ (by rw [setSaved_bundle]; exact h1) (by rw [setSaved_uri]; exact h2)
      (by rw [setSaved_unused]; exact h3) (by rw [setSaved_fields]; exact h4)
      (by rw [setSaved_fields]; exact h5)

/-- The child field ids contributed by a children list. -/
def childFields (paths : List PathRecord) (l : List Tree) : List String :=
  l.filterMap (fun c => (lookupPath paths c.id).map (fun p => p.field))

theorem childFields_cons_some {paths : List PathRecord} {d : Tree} {p : PathRecord}
    (l : List Tree) (h : lookupPath paths d.id = some p) :
    childFields paths (d :: l) = p.field :: childFields paths l := by
  simp [childFields, List.filterMap_cons, h]

theorem childFields_cons_none {paths : List PathRecord} {d : Tree}
    (l : List Tree) (h : lookupPath paths d.id = none) :
    childFields paths (d :: l) = childFields paths l := by
  simp [childFields, List.filterMap_cons, h]

theorem mem_childFields {paths : List PathRecord} {l : List Tree} {c : Tree} {p : PathRecord}
    (hc : c ∈ l) (hp : lookupPath paths c.id = some p) : p.field ∈ childFields paths l := by
  unfold childFields
  exact List.mem_filterMap.mpr ⟨c, hc, by rw [hp]; rfl⟩

theorem childFields_unique (paths : List PathRecord) :
    ∀ (l : List Tree), (childFields paths l).Nodup →
      ∀ c1 c2 p1 p2, c1 ∈ l → c2 ∈ l → lookupPath paths c1.id = some p1 →
        lookupPath paths c2.id = some p2 → p1.field = p2.field → p1 = p2
  | [], _, c1, c2, p1, p2, h1, h2, _, _, _ => by simp at h1
  | d :: l, hnd, c1, c2, p1, p2, h1, h2, hl1, hl2, hf => by
    rcases List.mem_cons.mp h1 with rfl | h1t
    · rcases List.mem_cons.mp h2 with rfl | h2t
      · exact Option.some_inj.mp (hl1.symm.trans hl2)
      · rw [childFields_cons_some l hl1] at hnd
        exact absurd (hf ▸ mem_childFields h2t hl2) (List.nodup_cons.mp hnd).1
    · rcases List.mem_cons.mp h2 with rfl | h2t
      · rw [childFields_cons_some l hl2] at hnd
        exact absurd (hf ▸ mem_childFields h1t hl1) (List.nodup_cons.mp hnd).1
      · have hndt : (childFields paths l).Nodup := by
          cases hld : lookupPath paths d.id with
          | none => rw [childFields_cons_none l hld] at hnd; exact hnd
          | some q => rw [childFields_cons_some l hld] at hnd; exact (List.nodup_cons.mp hnd).2
        exact childFields_unique paths l hndt c1 c2 p1 p2 h1t h2t hl1 hl2 hf

/-- The induction hypothesis shape of the round-trip proof: at fuel `n`, a
well-formed entity of depth at most `n` serializes, reloads equivalently,
re-serializes, and reads unmodified after a `modified=false` load. -/
def MainIH (pb : PB) (n : Nat) : Prop :=
  ∀ e, entDepth e ≤ n → WFe pb e →
    ∃ l, serialize n pb e = some (.obj l) ∧
      ∀ m, ∃ e1, load n pb Entity.fresh l m = some e1 ∧ EEqv e e1 ∧
        (∃ l2, serialize n pb e1 = some (.obj l2)) ∧
        (m = false → modifiedE n pb e1 = some false)

theorem serValuesAux_jval {ser : Entity → Option JVal} {p : PathRecord} {j : JVal}
    {vs : List Value} {fdt : List JVal} (ht : serValuesAux ser p vs = some fdt) :
    serValuesAux ser p (.jval j :: vs) = some (.obj (format_value p.fieldtype j) :: fdt) := by
  show Option.map (fun rest => JVal.obj (format_value p.fieldtype j) :: rest)
      (serValuesAux ser p vs) = some (JVal.obj (format_value p.fieldtype j) :: fdt)
  rw [ht]
  rfl

theorem serValuesAux_ent {ser : Entity → Option JVal} {p : PathRecord} {sub : Entity}
    {vs : List Value} {fdt : List JVal} {subj : JVal}
    (hcond : (p.is_group || p.fieldtype == "entity_reference") = true)
    (hlen : (sub.fields.length == 0) = false)
    (hs : ser sub = some subj) (ht : serValuesAux ser p vs = some fdt) :
    serValuesAux ser p (.entity sub :: vs) = some (.obj [("entity", subj)] :: fdt) := by
  show (if (p.is_group || p.fieldtype == "entity_reference") = true then
      if (sub.fields.length == 0) = true then serValuesAux ser p vs
      else
        match ser sub with
        | none => none
        | some c => Option.map (fun rest => JVal.obj [("entity", c)] :: rest)
            (serValuesAux ser p vs)
    else Option.map (fun rest => JVal.obj (format_value p.fieldtype JVal.pyobj) :: rest)
      (serValuesAux ser p vs)) = some (JVal.obj [("entity", subj)] :: fdt)
  rw [if_pos hcond, if_neg (by simp [hlen]), hs, ht]
  rfl

theorem loadValuesAux_scalar {deser : List (String × JVal) → Option Entity} {ft : String}
    {o : List (String × JVal)} {rest : List JVal} {nfvt : List Value} {j : JVal}
    (hno : containsKey o "entity" = false) (hgv : get_value ft o = some j)
    (ht : loadValuesAux deser ft rest = some nfvt) :
    loadValuesAux deser ft (.obj o :: rest) = some (.jval j :: nfvt) := by
  show (if containsKey o "entity" = true then
      match lookupKey o "entity" with
      | some (JVal.obj subL) =>
        match deser subL with
        | some sub => Option.map (fun r => Value.entity sub :: r) (loadValuesAux deser ft rest)
        | none => none
      | _ => none
    else
      match get_value ft o with
      | some j => Option.map (fun r => Value.jval j :: r) (loadValuesAux deser ft rest)
      | none => none) = some (Value.jval j :: nfvt)
  rw [if_neg (by simp [hno]), hgv, ht]
  rfl

theorem loadValuesAux_ent {deser : List (String × JVal) → Option Entity} {ft : String}
    {subL : List (String × JVal)} {sub : Entity} {rest : List JVal} {nfvt : List Value}
    (hd : deser subL = some sub) (ht : loadValuesAux deser ft rest = some nfvt) :
    loadValuesAux deser ft (.obj [("entity", .obj subL)] :: rest) =
      some (.entity sub :: nfvt) := by
  show (match deser subL with
    | some sub => (loadValuesAux deser ft rest).map (fun r => .entity sub :: r)
    | none => none) = some (.entity sub :: nfvt)
  rw [hd, ht]
  rfl

theorem EEqv_fields_nonempty {a b : Entity} (h : EEqv a b) (hne : a.fields ≠ []) :
    (b.fields.length == 0) = false := by
  cases h with
  | intro a b h1 h2 h3 h4 h5 =>
    cases hfa : a.fields with
    | nil => exact absurd hfa hne
    | cons q rest =>
      have hca : containsKey a.fields q.1 = true := by
        rw [hfa, containsKey_cons]
        simp
      have hcb : containsKey b.fields q.1 = true := by rw [← h4, hca]
      cases hfb : b.fields with
      | nil =>
        rw [hfb] at hcb
        simp [containsKey] at hcb
      | cons q2 rest2 => simp

theorem roundtrip_values (pb : PB) (n : Nat) (ih : MainIH pb n) (p : PathRecord) :
    ∀ vs : List Value, WFvs pb p vs → valsDepth vs ≤ n →
      ∃ fd, serValuesAux (serialize n pb) p vs = some fd ∧
        ∀ m, ∃ nfv, loadValuesAux (fun subL => load n pb Entity.fresh subL m)
            p.fieldtype fd = some nfv ∧ VsEqv vs nfv ∧
          ∃ fd2, serValuesAux (serialize n pb) p nfv = some fd2
  | [], _, _ => by
    refine ⟨[], rfl, fun m => ⟨[], rfl, VsEqv.nil, [], rfl⟩⟩
  | v :: vs, hwf, hdep => by
    have hv : WFv pb p v := by cases hwf; assumption
    have hvs : WFvs pb p vs := by cases hwf; assumption
    have hdvs : valsDepth vs ≤ n := le_trans (le_max_right _ _) (by rw [← valsDepth_cons v vs]; exact hdep)
    obtain ⟨fdt, hser_t, hrest_t⟩ := roundtrip_values pb n ih p vs hvs hdvs
    cases hv with
    | scalar p s hlink hfile =>
      refine ⟨.obj (format_value p.fieldtype (.str s)) :: fdt, serValuesAux_jval hser_t, ?_⟩
      intro m
      obtain ⟨nfvt, hload_t, heqv_t, fd2t, hser2_t⟩ := hrest_t m
      exact ⟨.jval (.str s) :: nfvt,
        loadValuesAux_scalar (format_value_no_entity _ _) (codec_roundtrip _ s hlink hfile)
          hload_t,
        VsEqv.cons _ _ _ _ (VEqv.jval _) heqv_t,
        .obj (format_value p.fieldtype (.str s)) :: fd2t, serValuesAux_jval hser2_t⟩
    | ent p sub hgrp hne hwfe =>
      have hdsub : entDepth sub ≤ n := by
        have h1 : valDepth (.entity sub) ≤ valsDepth (Value.entity sub :: vs) := by
          rw [valsDepth_cons]
          exact le_max_left _ _
        exact le_trans h1 hdep
      obtain ⟨subl, hsub_ser, hsub_rest⟩ := ih sub hdsub hwfe
      have hcond : (p.is_group || p.fieldtype == "entity_reference") = true := by
        rcases hgrp with h | h <;> simp [h]
      have hlen : (sub.fields.length == 0) = false := by
        cases hfa : sub.fields with
        | nil => exact absurd hfa hne
        | cons q r => simp
      refine ⟨.obj [("entity", .obj subl)] :: fdt,
        serValuesAux_ent hcond hlen hsub_ser hser_t, ?_⟩
      intro m
      obtain ⟨nfvt, hload_t, heqv_t, fd2t, hser2_t⟩ := hrest_t m
      obtain ⟨sub1, hsub_load, hsub_eqv, ⟨subl2, hsub_ser2⟩, _⟩ := hsub_rest m
      exact ⟨.entity sub1 :: nfvt, loadValuesAux_ent hsub_load hload_t,
        VsEqv.cons _ _ _ _ (VEqv.ent _ _ hsub_eqv) heqv_t,
        .obj [("entity", .obj subl2)] :: fd2t,
        serValuesAux_ent hcond (EEqv_fields_nonempty hsub_eqv hne) hsub_ser2 hser2_t⟩

theorem serFieldsAux_cons_none {paths : List PathRecord} {fields : List (String × List Value)}
    {ser : Entity → Option JVal} {c : Tree} (cs : List Tree) (acc : List (String × JVal))
    (hlp : lookupPath paths c.id = none) :
    serFieldsAux paths fields ser (c :: cs) acc = none := by
  unfold serFieldsAux
  simp only [hlp]

theorem serFieldsAux_cons_skip {paths : List PathRecord} {fields : List (String × List Value)}
    {ser : Entity → Option JVal} {c : Tree} {p : PathRecord} (cs : List Tree)
    (acc : List (String × JVal)) (hlp : lookupPath paths c.id = some p)
    (hlk : lookupKey fields p.field = none) :
    serFieldsAux paths fields ser (c :: cs) acc = serFieldsAux paths fields ser cs acc := by
  conv_lhs => unfold serFieldsAux
  simp only [hlp, hlk]

theorem serFieldsAux_cons_emit {paths : List PathRecord} {fields : List (String × List Value)}
    {ser : Entity → Option JVal} {c : Tree} {p : PathRecord} {vs : List Value} {fd : List JVal}
    (cs : List Tree) (acc : List (String × JVal)) (hlp : lookupPath paths c.id = some p)
    (hlk : lookupKey fields p.field = some vs) (hsv : serValuesAux ser p vs = some fd) :
    serFieldsAux paths fields ser (c :: cs) acc =
      serFieldsAux paths fields ser cs (dictInsert acc p.field (.arr fd)) := by
  conv_lhs => unfold serFieldsAux
  simp only [hlp, hlk, hsv]

theorem loadItemsAux_cons_step {pb : PB} {d : List (String × JVal) → Option Entity}
    {k0 : String} {v : JVal} {st st1 : LoadSt} (rest : List (String × JVal))
    (hs : loadStep pb d k0 v st = some st1) :
    loadItemsAux pb d ((k0, v) :: rest) st = loadItemsAux pb d rest st1 := by
  conv_lhs => unfold loadItemsAux
  simp only [hs]

theorem loadItemsAux_append {pb : PB} {d : List (String × JVal) → Option Entity} :
    ∀ (xs ys : List (String × JVal)) (st : LoadSt),
      loadItemsAux pb d (xs ++ ys) st =
        (match loadItemsAux pb d xs st with
         | none => none
         | some st2 => loadItemsAux pb d ys st2)
  | [], ys, st => rfl
  | (k, v) :: xs, ys, st => by
    rw [List.cons_append]
    cases hs : loadStep pb d k v st with
    | none =>
      unfold loadItemsAux
      simp only [hs]
    | some st2 =>
      rw [loadItemsAux_cons_step _ hs, loadItemsAux_cons_step xs hs,
        loadItemsAux_append xs ys st2]

theorem serFieldsAux_congr {paths : List PathRecord} {f1 f2 : List (String × List Value)}
    {ser : Entity → Option JVal} :
    ∀ (cs : List Tree) (acc : List (String × JVal)),
      (∀ c, c ∈ cs → ∀ p, lookupPath paths c.id = some p →
        lookupKey f1 p.field = lookupKey f2 p.field) →
      serFieldsAux paths f1 ser cs acc = serFieldsAux paths f2 ser cs acc
  | [], acc, _ => rfl
  | c :: cs, acc, h => by
    cases hlp : lookupPath paths c.id with
    | none =>
      rw [serFieldsAux_cons_none cs acc hlp, serFieldsAux_cons_none cs acc hlp]
    | some p =>
      have hk := h c (List.mem_cons_self c cs) p hlp
      have htail : ∀ c2, c2 ∈ cs → ∀ p2, lookupPath paths c2.id = some p2 →
          lookupKey f1 p2.field = lookupKey f2 p2.field :=
        fun c2 hc2 p2 hp2 => h c2 (List.mem_cons_of_mem c hc2) p2 hp2
      cases hlk : lookupKey f1 p.field with
      | none =>
        rw [serFieldsAux_cons_skip cs acc hlp hlk,
          serFieldsAux_cons_skip cs acc hlp (hk ▸ hlk), serFieldsAux_congr cs acc htail]
      | some vs =>
        cases hsv : serValuesAux ser p vs with
        | none =>
          unfold serFieldsAux
          simp only [hlp, hlk, hsv, hk ▸ hlk]
        | some fd =>
          rw [serFieldsAux_cons_emit cs acc hlp hlk hsv,
            serFieldsAux_cons_emit cs acc hlp (hk ▸ hlk) hsv,
            serFieldsAux_congr cs _ htail]

theorem loadItems_serBase {pb : PB} {d : List (String × JVal) → Option Entity} (e : Entity)
    (huri : e.uri ≠ some "") :
    loadItemsAux pb d (serBase e) ⟨"", none, [], []⟩ = some ⟨e.bundle_id, e.uri, [], []⟩ := by
  cases hu : e.uri with
  | none =>
    simp only [serBase, hu]
    rw [loadItemsAux_cons_step []
      (loadStep_bundle _ (show parseBundleMarker (JVal.arr
        [.obj [("target_id", .str e.bundle_id), ("target_type", .str WISSKI_BUNDLE)]]) =
          some e.bundle_id from rfl))]
    rfl
  | some u =>
    have hne : u ≠ "" := fun he => huri (by rw [hu, he])
    simp only [serBase, hu]
    rw [if_pos hne]
    rw [show ([("bundle",
        JVal.arr [.obj [("target_id", .str e.bundle_id), ("target_type", .str WISSKI_BUNDLE)]])] ++
        [("wisski_uri", JVal.arr [.obj [("value", .str u)]])]) =
      ("bundle",
        JVal.arr [.obj [("target_id", .str e.bundle_id), ("target_type", .str WISSKI_BUNDLE)]]) ::
      [("wisski_uri", JVal.arr [.obj [("value", .str u)]])] from rfl]
    rw [loadItemsAux_cons_step _
      (loadStep_bundle _ (show parseBundleMarker (JVal.arr
        [.obj [("target_id", .str e.bundle_id), ("target_type", .str WISSKI_BUNDLE)]]) =
          some e.bundle_id from rfl))]
    rw [loadItemsAux_cons_step []
      (loadStep_uri _ (show parseUriMarker (JVal.arr [.obj [("value", .str u)]]) =
        some u from rfl))]
    rfl

theorem roundtrip_children (pb : PB) (n : Nat) (ih : MainIH pb n)
    (fields : List (String × List Value)) (allcs : List Tree)
    (hres : ∀ c, c ∈ allcs → (lookupPath pb.paths c.id).isSome = true)
    (hndf : (childFields pb.paths allcs).Nodup)
    (hfok : ∀ k vs, lookupKey fields k = some vs → k ≠ "bundle" ∧ k ≠ "wisski_uri" ∧
      ∃ c, c ∈ allcs ∧ ∃ p, lookupPath pb.paths c.id = some p ∧ p.field = k ∧
        get_path_for_id pb k = some p)
    (hwfv : ∀ k vs, lookupKey fields k = some vs → ∀ p, get_path_for_id pb k = some p →
      WFvs pb p vs)
    (hdep : fieldsDepth fields ≤ n) :
    ∀ cs : List Tree, cs.Sublist allcs →
      ∃ E : List (String × JVal),
        (∀ acc, (∀ k, containsKey E k = true → containsKey acc k = false) →
          serFieldsAux pb.paths fields (serialize n pb) cs acc = some (acc ++ E)) ∧
        (∀ k, containsKey E k = true ↔ (containsKey fields k = true ∧
          ∃ c, c ∈ cs ∧ ∃ p, lookupPath pb.paths c.id = some p ∧ p.field = k)) ∧
        (E.map Prod.fst).Nodup ∧
        (∀ m, ∃ F : List (String × List Value),
          (∀ st : LoadSt, (∀ k, containsKey E k = true → containsKey st.fields k = false) →
            loadItemsAux pb (fun subL => load n pb Entity.fresh subL m) E st =
              some ⟨st.bundle_id, st.uri, st.fields ++ F, st.unused⟩) ∧
          (∀ k, containsKey F k = containsKey E k) ∧
          (∀ k vs nf, lookupKey fields k = some vs → lookupKey F k = some nf → VsEqv vs nf) ∧
          (∀ acc, (∀ k, containsKey E k = true → containsKey acc k = false) →
            ∃ E2, serFieldsAux pb.paths F (serialize n pb) cs acc = some (acc ++ E2)))
  | [], _ => by
    refine ⟨[], ?_, ?_, List.nodup_nil, ?_⟩
    · intro acc _
      rw [List.append_nil]
      rfl
    · intro k
      constructor
      · intro hk
        simp [containsKey] at hk
      · rintro ⟨_, c, hc, _⟩
        simp at hc
    · intro m
      refine ⟨[], ?_, ?_, ?_, ?_⟩
      · intro st _
        rw [List.append_nil]
        rfl
      · intro k
        rfl
      · intro k vs nf _ hnf
        simp [lookupKey] at hnf
      · intro acc _
        refine ⟨[], ?_⟩
        rw [List.append_nil]
        rfl
  | c :: cs, hsl => by
    have hcmem : c ∈ allcs := hsl.subset (List.mem_cons_self c cs)
    have hslt : cs.Sublist allcs := List.sublist_of_cons_sublist hsl
    obtain ⟨p, hlp⟩ := Option.isSome_iff_exists.mp (hres c hcmem)
    have hndcs : (childFields pb.paths (c :: cs)).Nodup :=
      List.Nodup.sublist (List.Sublist.filterMap _ hsl) hndf
    have hpnotcs : p.field ∉ childFields pb.paths cs := by
      rw [childFields_cons_some cs hlp] at hndcs
      exact (List.nodup_cons.mp hndcs).1
    obtain ⟨E1, hser1, hkeys1, hnd1, hload1⟩ :=
      roundtrip_children pb n ih fields allcs hres hndf hfok hwfv hdep cs hslt
    have hE1sub : ∀ k, containsKey E1 k = true → k ∈ childFields pb.paths cs := by
      intro k hk
      obtain ⟨_, c2, hc2, p2, hp2, hpf2⟩ := (hkeys1 k).mp hk
      exact hpf2 ▸ mem_childFields hc2 hp2
    cases hlk : lookupKey fields p.field with
    | none =>
      refine ⟨E1, ?_, ?_, hnd1, ?_⟩
      · intro acc hacc
        rw [serFieldsAux_cons_skip cs acc hlp hlk]
        exact hser1 acc hacc
      · intro k
        rw [hkeys1 k]
        constructor
        · rintro ⟨hck, c2, hc2, hrest⟩
          exact ⟨hck, c2, List.mem_cons_of_mem c hc2, hrest⟩
        · rintro ⟨hck, c2, hc2, p2, hp2, hpf2⟩
          rcases List.mem_cons.mp hc2 with rfl | hc2t
          · exfalso
            rw [hlp] at hp2
            have hp2p : p = p2 := Option.some_inj.mp hp2
            rw [containsKey_eq_isSome_lookupKey, ← hpf2, ← hp2p, hlk] at hck
            simp at hck
          · exact ⟨hck, c2, hc2t, p2, hp2, hpf2⟩
      · intro m
        obtain ⟨F1, hloadF1, hFkeys1, hFeqv1, hser21⟩ := hload1 m
        refine ⟨F1, hloadF1, hFkeys1, hFeqv1, ?_⟩
        intro acc hacc
        obtain ⟨E2, hE2⟩ := hser21 acc hacc
        refine ⟨E2, ?_⟩
        have hlkF : lookupKey F1 p.field = none := by
          apply lookupKey_eq_none_of_not_contains
          rw [hFkeys1 p.field]
          cases hcE : containsKey E1 p.field
          · rfl
          · exact absurd (hE1sub p.field hcE) hpnotcs
        rw [serFieldsAux_cons_skip cs acc hlp hlkF]
        exact hE2
    | some vs =>
      obtain ⟨hkb, hku, c2, hc2, p2, hp2, hpf2, hgp2⟩ := hfok p.field vs hlk
      have hpp : p2 = p :=
        childFields_unique pb.paths allcs hndf c2 c p2 p hc2 hcmem hp2 hlp hpf2
      subst hpp
      have hwfvs : WFvs pb p2 vs := hwfv p2.field vs hlk p2 hgp2
      have hdvs : valsDepth vs ≤ n := le_trans (lookupKey_fieldsDepth hlk) hdep
      obtain ⟨fd, hfd, hfdm⟩ := roundtrip_values pb n ih p2 vs hwfvs hdvs
      refine ⟨(p2.field, .arr fd) :: E1, ?_, ?_, ?_, ?_⟩
      · intro acc hacc
        have haccp : containsKey acc p2.field = false :=
          hacc p2.field (by rw [containsKey_cons]; simp)
        rw [serFieldsAux_cons_emit cs acc hlp hlk hfd, dictInsert_of_not_contains _ haccp]
        have hacc2 : ∀ k, containsKey E1 k = true →
            containsKey (acc ++ [(p2.field, JVal.arr fd)]) k = false := by
          intro k hk
          rw [containsKey_append]
          have h1 : containsKey acc k = false := hacc k (by rw [containsKey_cons, hk]; simp)
          have hne : k ≠ p2.field := fun he => hpnotcs (he ▸ hE1sub k hk)
          rw [h1, containsKey_cons]
          simp [containsKey, Ne.symm hne]
        rw [hser1 _ hacc2, List.append_assoc]
        rfl
      · intro k
        rw [containsKey_cons]
        constructor
        · intro hk
          rcases bool_or_elim hk with h1 | h2
          · have hke : p2.field = k := by simpa using h1
            exact ⟨hke ▸ contains_of_lookupKey hlk, c, List.mem_cons_self c cs, p2, hlp, hke⟩
          · obtain ⟨hck, c3, hc3, hrest⟩ := (hkeys1 k).mp h2
            exact ⟨hck, c3, List.mem_cons_of_mem c hc3, hrest⟩
        · rintro ⟨hck, c3, hc3, p3, hp3, hpf3⟩
          rcases List.mem_cons.mp hc3 with rfl | hc3t
          · rw [hlp] at hp3
            have : p2 = p3 := Option.some_inj.mp hp3
            rw [← hpf3, ← this]
            simp
          · rw [(hkeys1 k).mpr ⟨hck, c3, hc3t, p3, hp3, hpf3⟩]
            simp
      · rw [List.map_cons, List.nodup_cons]
        constructor
        · intro hmem
          obtain ⟨q, hq, hqf⟩ := List.mem_map.mp hmem
          have hcE : containsKey E1 p2.field = true := by
            unfold containsKey
            exact List.any_eq_true.mpr ⟨q, hq, by simp [hqf]⟩
          exact hpnotcs (hE1sub p2.field hcE)
        · exact hnd1
      · intro m
        obtain ⟨nfv, hnfv, heqv, fd2, hfd2⟩ := hfdm m
        obtain ⟨F1, hloadF1, hFkeys1, hFeqv1, hser21⟩ := hload1 m
        refine ⟨(p2.field, nfv) :: F1, ?_, ?_, ?_, ?_⟩
        · intro st hst
          have hstp : containsKey st.fields p2.field = false :=
            hst p2.field (by rw [containsKey_cons]; simp)
          have hstep : loadStep pb (fun subL => load n pb Entity.fresh subL m) p2.field
              (.arr fd) st =
              some ⟨st.bundle_id, st.uri, st.fields ++ [(p2.field, nfv)], st.unused⟩ := by
            rw [loadStep_known st hkb hku hgp2 hnfv, fields2Of_fresh nfv hstp]
          rw [loadItemsAux_cons_step E1 hstep]
          have hst2 : ∀ k, containsKey E1 k = true →
              containsKey (st.fields ++ [(p2.field, nfv)]) k = false := by
            intro k hk
            rw [containsKey_append]
            have h1 : containsKey st.fields k = false :=
              hst k (by rw [containsKey_cons, hk]; simp)
            have hne : k ≠ p2.field := fun he => hpnotcs (he ▸ hE1sub k hk)
            rw [h1, containsKey_cons]
            simp [containsKey, Ne.symm hne]
          rw [hloadF1 _ hst2]
          show _ = some ⟨st.bundle_id, st.uri, st.fields ++ ((p2.field, nfv) :: F1), st.unused⟩
          rw [List.append_assoc]
          rfl
        · intro k
          rw [containsKey_cons, containsKey_cons, hFkeys1 k]
        · intro k vsx nf hvsx hnf
          rw [lookupKey_cons] at hnf
          by_cases hke : p2.field = k
          · rw [if_pos hke] at hnf
            have hv1 : vsx = vs := by
              rw [← hke] at hvsx
              exact Option.some_inj.mp (hvsx.symm.trans hlk)
            have hv2 : nfv = nf := Option.some_inj.mp hnf
            rw [hv1, ← hv2]
            exact heqv
          · rw [if_neg hke] at hnf
            exact hFeqv1 k vsx nf hvsx hnf
        · intro acc hacc
          have haccp : containsKey acc p2.field = false :=
            hacc p2.field (by rw [containsKey_cons]; simp)
          have hlkF : lookupKey ((p2.field, nfv) :: F1) p2.field = some nfv := by
            rw [lookupKey_cons, if_pos rfl]
          rw [serFieldsAux_cons_emit cs acc hlp hlkF hfd2, dictInsert_of_not_contains _ haccp]
          have hcongr : serFieldsAux pb.paths ((p2.field, nfv) :: F1) (serialize n pb) cs
              (acc ++ [(p2.field, JVal.arr fd2)]) =
              serFieldsAux pb.paths F1 (serialize n pb) cs
                (acc ++ [(p2.field, JVal.arr fd2)]) := by
            apply serFieldsAux_congr
            intro c3 hc3 p3 hp3
            have hne3 : p2.field ≠ p3.field := fun he =>
              hpnotcs (by rw [he]; exact mem_childFields hc3 hp3)
            rw [lookupKey_cons, if_neg hne3]
          rw [hcongr]
          have hacc2 : ∀ k, containsKey E1 k = true →
              containsKey (acc ++ [(p2.field, JVal.arr fd2)]) k = false := by
            intro k hk
            rw [containsKey_append]
            have h1 : containsKey acc k = false := hacc k (by rw [containsKey_cons, hk]; simp)
            have hne : k ≠ p2.field := fun he => hpnotcs (he ▸ hE1sub k hk)
            rw [h1, containsKey_cons]
            simp [containsKey, Ne.symm hne]
          obtain ⟨E2, hE2⟩ := hser21 _ hacc2
          refine ⟨(p2.field, JVal.arr fd2) :: E2, ?_⟩
          rw [hE2, List.append_assoc]
          rfl

theorem roundtrip_main (pb : PB) : ∀ n : Nat, MainIH pb n
  | 0 => by
    intro e hd _
    rw [entDepth_eq] at hd
    omega
  | n + 1 => by
    have ih : MainIH pb n := roundtrip_main pb n
    intro e hd hwf
    cases hwf with
    | intro e node hsub hres hnd hunused huri hfokw hwfvw =>
    have hdep : fieldsDepth e.fields ≤ n := by
      rw [entDepth_eq] at hd
      omega
    have hfok : ∀ k vs, lookupKey e.fields k = some vs → k ≠ "bundle" ∧ k ≠ "wisski_uri" ∧
        ∃ c, c ∈ node.children ∧ ∃ p, lookupPath pb.paths c.id = some p ∧ p.field = k ∧
          get_path_for_id pb k = some p :=
      fun k vs h => hfokw k vs h
    obtain ⟨E, hser, hkeys, hndE, hload⟩ :=
      roundtrip_children pb n ih e.fields node.children hres hnd hfok hwfvw hdep
        node.children (List.Sublist.refl _)
    have hEfresh : ∀ k, containsKey E k = true → containsKey (serBase e) k = false := by
      intro k hk
      obtain ⟨hck, _⟩ := (hkeys k).mp hk
      rw [containsKey_eq_isSome_lookupKey] at hck
      obtain ⟨vs, hvs⟩ := Option.isSome_iff_exists.mp hck
      obtain ⟨hkb, hku, _⟩ := hfok k vs hvs
      exact not_containsKey_serBase hkb hku
    have hserE : serialize (n + 1) pb e = some (.obj (serBase e ++ E)) := by
      rw [serialize_succ_eq]
      simp only [hsub, hser (serBase e) hEfresh, hunused, dictUpdate_nil]
    refine ⟨serBase e ++ E, hserE, ?_⟩
    intro m
    obtain ⟨F, hloadF, hFkeys, hFeqv, hser2⟩ := hload m
    have hli : loadItemsAux pb (fun subL => load n pb Entity.fresh subL m)
        (serBase e ++ E) ⟨"", none, [], []⟩ = some ⟨e.bundle_id, e.uri, F, []⟩ := by
      rw [loadItemsAux_append, loadItems_serBase e huri]
      show loadItemsAux pb (fun subL => load n pb Entity.fresh subL m) E
        ⟨e.bundle_id, e.uri, [], []⟩ = some ⟨e.bundle_id, e.uri, F, []⟩
      exact hloadF ⟨e.bundle_id, e.uri, [], []⟩ (fun k _ => rfl)
    have hl1 := @load_succ_some n pb Entity.fresh (serBase e ++ E) m
      ⟨e.bundle_id, e.uri, F, []⟩ hli
    obtain ⟨E2, hE2⟩ := hser2 (serBase e) hEfresh
    have hserE1 : serialize (n + 1) pb (Entity.mk e.bundle_id F e.uri none []) =
        some (.obj (serBase e ++ E2)) := by
      rw [serialize_succ_eq,
        @serBase_congr (Entity.mk e.bundle_id F e.uri none []) e rfl rfl]
      show (match get_subtree_for_field_id pb e.bundle_id with
        | none => none
        | some node =>
          match serFieldsAux pb.paths F (serialize n pb) node.children (serBase e) with
          | none => none
          | some acc => some (JVal.obj acc)) = some (JVal.obj (serBase e ++ E2))
      simp only [hsub, hE2]
    have heqv : EEqv e (Entity.mk e.bundle_id F e.uri none []) := by
      refine EEqv.intro _ _ rfl rfl hunused ?_ ?_
      · intro k
        show containsKey e.fields k = containsKey F k
        rw [hFkeys k]
        cases hcE : containsKey E k with
        | true => exact ((hkeys k).mp hcE).1
        | false =>
          cases hc : containsKey e.fields k with
          | false => rfl
          | true =>
            exfalso
            rw [containsKey_eq_isSome_lookupKey] at hc
            obtain ⟨vs, hvs⟩ := Option.isSome_iff_exists.mp hc
            obtain ⟨_, _, c, hcc, p, hp, hpf, _⟩ := hfok k vs hvs
            rw [(hkeys k).mpr ⟨contains_of_lookupKey hvs, c, hcc, p, hp, hpf⟩] at hcE
            exact Bool.noConfusion hcE
      · intro k va vb hva hvb
        exact hFeqv k va vb hva hvb
    cases m with
    | true =>
      refine ⟨Entity.mk e.bundle_id F e.uri none [], ?_, heqv,
        ⟨serBase e ++ E2, hserE1⟩, ?_⟩
      · rw [hl1]
        rfl
      · intro hm
        exact Bool.noConfusion hm
    | false =>
      have hmk : mark_unmodified (n + 1) pb (Entity.mk e.bundle_id F e.uri none []) =
          some ((Entity.mk e.bundle_id F e.uri none []).setSaved
            (some (dumps (.obj (serBase e ++ E2))))) := by
        unfold mark_unmodified hashE
        rw [hserE1]
        rfl
      refine ⟨(Entity.mk e.bundle_id F e.uri none []).setSaved
          (some (dumps (.obj (serBase e ++ E2)))), ?_, EEqv_setSaved heqv _, ?_, ?_⟩
      · rw [hl1]
        show mark_unmodified (n + 1) pb (Entity.mk e.bundle_id F e.uri none []) = _
        exact hmk
      · refine ⟨serBase e ++ E2, ?_⟩
        rw [serialize_setSaved]
        exact hserE1
      · intro _
        exact modifiedE_after_mark hmk

/-- Fixture: like `pbB` but the field `f1` carries the vocabulary fieldtype
`link`, whose decoder does not invert its encoder. -/
def pbL : PB :=
  (add_path (add_path PB.empty ⟨"gB", "0", "B", "B", "", true, true⟩).2
    ⟨"p1", "gB", "B", "f1", "link", false, true⟩).2

/-- C5: counterexample — an entity whose single field `f1` is known to the
bound path tree but has the `link` fieldtype serializes and reloads
successfully, yet the reloaded value is the HTML anchor rendering
`<a href=x>x</a>` instead of the original scalar `x`, so the round trip does
not reproduce the field values exactly. -/
theorem C5_link_roundtrip_broken :
    ∃ l e1, serialize 2 pbL entW = some (.obj l) ∧
      load 2 pbL Entity.fresh l false = some e1 ∧
      lookupKey entW.fields "f1" = some [.jval (.str "x")] ∧
      lookupKey e1.fields "f1" = some [.jval (.str "<a href=x>x</a>")] ∧
      ("<a href=x>x</a>" : String) ≠ "x" := by
  refine ⟨_, _, rfl, rfl, rfl, rfl, by decide⟩

/-- The fixture entity `entW` is well-formed against the fixture
pathbuilder `pbB`. -/
theorem wfe_entW : WFe pbB entW := by
  refine WFe.intro entW (Tree.node "gB" [Tree.node "p1" []]) rfl (by decide) (by decide)
    rfl (by decide) ?_ ?_
  · intro k vs h
    have h2 : lookupKey [("f1", [Value.jval (.str "x")])] k = some vs := h
    rw [lookupKey_cons] at h2
    by_cases hk : ("f1" : String) = k
    · subst hk
      exact ⟨by decide, by decide, Tree.node "p1" [], by decide,
        ⟨"p1", "gB", "B", "f1", "string", false, true⟩, rfl, rfl, rfl⟩
    · rw [if_neg hk] at h2
      exact absurd h2 (by simp [lookupKey])
  · intro k vs h p hp
    have h2 : lookupKey [("f1", [Value.jval (.str "x")])] k = some vs := h
    rw [lookupKey_cons] at h2
    by_cases hk : ("f1" : String) = k
    · subst hk
      rw [if_pos rfl] at h2
      have hv : vs = [Value.jval (.str "x")] := (Option.some_inj.mp h2).symm
      have hgp : get_path_for_id pbB "f1" =
          some (⟨"p1", "gB", "B", "f1", "string", false, true⟩ : PathRecord) := rfl
      have hpv : p = (⟨"p1", "gB", "B", "f1", "string", false, true⟩ : PathRecord) :=
        Option.some_inj.mp (hp.symm.trans hgp)
      subst hv
      subst hpv
      exact WFvs.cons _ _ _ (WFv.scalar _ "x" (by decide) (by decide)) (WFvs.nil _)
    · rw [if_neg hk] at h2
      exact absurd h2 (by simp [lookupKey])

/-- C5 (amended): for a well-formed entity — every field key matched by
exactly one child path of its bundle node, values well-formed under their
path records (scalar strings of non-`link`/non-`file` fieldtypes, or
non-empty well-formed sub-entities of group / entity-reference paths), no
unused fields, no empty-string uri — and enough fuel for its nesting depth,
`serialize` succeeds, `load` of the wire object succeeds, the reloaded
entity is content-equivalent to the original (same bundle, uri, field keys,
and pointwise equal scalar values in order within each field), and after a
`modified=false` load the `modified` predicate reads `false`. -/
theorem C5_roundtrip_amended (pb : PB) (n : Nat) (e : Entity)
    (hd : entDepth e ≤ n) (hwf : WFe pb e) :
    ∃ l, serialize n pb e = some (.obj l) ∧
      ∀ m, ∃ e1, load n pb Entity.fresh l m = some e1 ∧ EEqv e e1 ∧
        (m = false → modifiedE n pb e1 = some false) := by
  obtain ⟨l, hs, h⟩ := roundtrip_main pb n e hd hwf
  refine ⟨l, hs, fun m => ?_⟩
  obtain ⟨e1, h1, h2, _, h4⟩ := h m
  exact ⟨e1, h1, h2, h4⟩

/-- C5 witness: the amended round trip at the concrete fixture `entW`
against `pbB` with fuel 2. -/
theorem C5_witness :
    entDepth entW ≤ 2 ∧ WFe pbB entW ∧
    ∃ l, serialize 2 pbB entW = some (.obj l) ∧
      ∀ m, ∃ e1, load 2 pbB Entity.fresh l m = some e1 ∧ EEqv entW e1 ∧
        (m = false → modifiedE 2 pbB e1 = some false) :=
  ⟨by decide, wfe_entW, C5_roundtrip_amended pbB 2 entW (by decide) wfe_entW⟩
